import Mathlib

/-!
Verification of the Mathrax puzzle solver (`src/solver.py`, Python 2) against its
natural-language specification.

The program is embedded shallowly and executably:

* machine integers are modelled as `Int`; Python 2 integer division (`//`-style
  flooring of `/` on ints) is `Int.fdiv`;
* Python dicts keyed by grid cells are modelled as total functions
  `Cell → List Int`, with explicit grid-membership guards (`lookupGrid`)
  wherever the Python code would raise `KeyError` on a missing key;
* Python tuples of candidate values are `List Int` in the same order;
* Python sets that are only ever used for membership and emptiness tests are
  lists (possibly with duplicates); where the original iterates over a set
  (whose order Python 2 leaves unspecified) we iterate in a fixed canonical
  order derived from the construction;
* the exception-based control flow becomes `Except PErr`; the mutual
  recursion of `eliminate_value` / `assign_value` and of `search` is made
  total with an explicit fuel parameter, `.error .fuelOut` marking fuel
  exhaustion (which never happens for sufficient fuel, proved below);
* Python 2 raising `ZeroDivisionError` on division by zero is modelled by the
  dedicated error `PErr.zeroDiv`.
-/

namespace Mathrax

/-- A grid cell, a coordinate pair as in the Python source. -/
abbrev Cell := Nat × Nat

/-- `Rule = collections.namedtuple("Rule", ["op", "value"])`. -/
structure Rule where
  op : String
  value : Int
deriving DecidableEq, Repr

/-- `Puzzle = collections.namedtuple("Puzzle", ["size", "rules", "givens"])`.
The Python dicts `rules` and `givens` are association lists here, iterated in
list order. -/
structure Puzzle where
  size : Nat
  rules : List (Cell × Rule)
  givens : List (Cell × Int)

/-- The exceptions the Python program can raise, plus `fuelOut` which is an
artifact of the fuel-based embedding of the recursion.
`contradiction` is `class Contradiction(Exception)`;
`noSolution` is the `ValueError("Failed to find a solution. :(")` raised at the
end of `solve`; `minEmpty` is the `ValueError` raised by `min` on an empty
sequence; `keyError` is a failed dict lookup; `unhandledOp` is the
`ValueError("Unhandled rule operation")` in `rule_inverse`; `zeroDiv` is
`ZeroDivisionError`. -/
inductive PErr where
  | contradiction
  | noSolution
  | keyError
  | minEmpty
  | unhandledOp
  | zeroDiv
  | fuelOut
deriving DecidableEq, Repr

/-- A domain state: the dict `possibles`, as a total function (the dict's key
set is exactly the grid, enforced by `lookupGrid` where lookup can fail). -/
abbrev Poss := Cell → List Int

/-- Rebinding one key of the `possibles` dict. -/
def setp (s : Poss) (c : Cell) (d : List Int) : Poss :=
  fun c' => if c' = c then d else s c'

/-- `self.cells = list(itertools.product(indices, indices))`. -/
def cells (n : Nat) : List Cell :=
  (List.range n).flatMap (fun x => (List.range n).map (fun y => (x, y)))

/-- The list `units` of `create_peersets`: first the units with fixed second
coordinate, then the units with fixed first coordinate. -/
def allUnits (n : Nat) : List (List Cell) :=
  (List.range n).map (fun i => (List.range n).map (fun x => (x, i))) ++
    (List.range n).map (fun i => (List.range n).map (fun y => (i, y)))

/-- `units_map[c] = [u for u in units if c in u]`. -/
def unitsMap (n : Nat) (c : Cell) : List (List Cell) :=
  (allUnits n).filter (fun u => c ∈ u)

/-- `peers[c] = set(sum(units_map[c], [])) - {c}`; as a list this is the
concatenation of the cell's units with `c` itself removed (the two units of a
grid cell intersect exactly in `c`, so no other duplication arises). -/
def peersOf (n : Nat) (c : Cell) : List Cell :=
  ((unitsMap n c).flatten).filter (fun c' => c' ≠ c)

/-- `create_rulesets`: the list of `(rule, partner)` entries attached to a
cell, in the order the `defaultdict` accumulates them (one pass over the rule
table, each anchor contributing to its four block cells). -/
def ruleConstraints (rules : List (Cell × Rule)) (c : Cell) : List (Rule × Cell) :=
  rules.filterMap (fun ar =>
    let x := ar.1.1
    let y := ar.1.2
    let r := ar.2
    if c = (x, y) then some (r, (x + 1, y + 1))
    else if c = (x + 1, y) then some (r, (x, y + 1))
    else if c = (x, y + 1) then some (r, (x + 1, y))
    else if c = (x + 1, y + 1) then some (r, (x, y))
    else none)

/-- The four cells of the 2×2 block anchored at `a`, in the order
`create_rulesets` first touches them. -/
def blockCells (a : Cell) : List Cell :=
  [(a.1, a.2), (a.1 + 1, a.2), (a.1, a.2 + 1), (a.1 + 1, a.2 + 1)]

/-- Deduplication keeping first occurrences, for the key set of the
`pair_constraints` dict in its insertion order. -/
def dedupFirst : List Cell → List Cell → List Cell
  | _, [] => []
  | seen, c :: rest =>
    if c ∈ seen then dedupFirst seen rest
    else c :: dedupFirst (c :: seen) rest

/-- The keys of `self.rule_constraints`, in insertion order. -/
def ruleKeys (rules : List (Cell × Rule)) : List Cell :=
  dedupFirst [] (rules.flatMap (fun ar => blockCells ar.1))

/-- `rule_inverse(rule, value, maximum)`.  Python 2 `/` on ints is floor
division (`Int.fdiv`); division by zero raises `ZeroDivisionError`.  The
result set is kept as a list in construction order. -/
def rule_inverse (r : Rule) (value : Int) (maximum : Int) : Except PErr (List Int) :=
  (if r.op = "+" then pure [r.value - value]
    else if r.op = "-" then pure [r.value + value, value - r.value]
    else if r.op = "*" then
      if value = 0 then Except.error PErr.zeroDiv
      else pure [Int.fdiv r.value value]
    else if r.op = "/" then
      if r.value = 0 then Except.error PErr.zeroDiv
      else pure [r.value * value, Int.fdiv value r.value]
    else Except.error PErr.unhandledOp) >>= fun vals =>
  pure (vals.filter (fun x => 0 < x && x ≤ maximum))

/-- `rule_complement(rule, values, maximum)`: union over the value set, the
inverses computed in value order exactly as the Python loop does; as a list
the union is concatenation (it is only ever used for membership and emptiness
tests). -/
def rule_complement (r : Rule) (values : List Int) (maximum : Int) :
    Except PErr (List Int) :=
  match values with
  | [] => pure []
  | v :: rest => do
    let inv ← rule_inverse r v maximum
    let tailU ← rule_complement r rest maximum
    pure (inv ++ tailU)

/-- A dict lookup on `possibles`, whose key set is exactly the grid. -/
def lookupGrid (n : Nat) (s : Poss) (c : Cell) : Except PErr (List Int) :=
  if c ∈ cells n then pure (s c) else Except.error PErr.keyError

/-- The initial domain state of `solve`: every grid cell holds `1..size`. -/
def initPoss (n : Nat) : Poss :=
  fun c =>
    if c ∈ cells n then (List.range n).map (fun (k : Nat) => (k : Int) + 1) else []

/-- Sequential composition of a fallible step over a list: the shape of every
`for` loop of the propagator (each iteration mutates the domain state or
raises). -/
def foldE (f : Poss → α → Except PErr Poss) : List α → Poss → Except PErr Poss
  | [], s => pure s
  | a :: rest, s => do
    let s' ← f s a
    foldE f rest s'

/-- The total number of remaining candidates across the grid, the measure
that every effective elimination strictly decreases. -/
def mes (n : Nat) (s : Poss) : Nat :=
  ((cells n).map (fun c => (s c).length)).sum

/-- One entry of the seeding loop at the top of `solve`: parity rules filter
the keyed cell's domain, binary rules intersect it with the complement of the
partner's current domain.  All dict lookups are guarded. -/
def seedEntry (p : Puzzle) (s : Poss) (idx : Cell) (e : Rule × Cell) :
    Except PErr Poss :=
  if e.1.op = "e" then do
    let d ← lookupGrid p.size s idx
    pure (setp s idx (d.filter (fun v => v % 2 = 0)))
  else if e.1.op = "o" then do
    let d ← lookupGrid p.size s idx
    pure (setp s idx (d.filter (fun v => v % 2 = 1)))
  else do
    let pd ← lookupGrid p.size s e.2
    let allowed ← rule_complement e.1 pd (p.size : Int)
    let od ← lookupGrid p.size s idx
    pure (setp s idx (od.filter (fun v => v ∈ allowed)))

/-- The inner seeding loop of `solve` over the entries of one key of
`self.rule_constraints`. -/
def seedKey (p : Puzzle) (s : Poss) (idx : Cell) : Except PErr Poss :=
  foldE (fun s e => seedEntry p s idx e) (ruleConstraints p.rules idx) s

/-- The seeding loop of `solve` (`for idx, rules in self.rule_constraints...`),
iterating keys in the dict's insertion order. -/
def seed (p : Puzzle) : Except PErr Poss :=
  foldE (fun s idx => seedKey p s idx) (ruleKeys p.rules) (initPoss p.size)

/-!
The propagation engine.  In the Python source `eliminate_value` and
`assign_value` are mutually recursive through the hidden-single rule.  To keep
every definition reducible by the kernel the recursion is embedded as a single
function `eliminateF`, structurally recursive on its fuel, with the body of
`assign_value` (a loop of `eliminate_value` calls) inlined at its two call
sites through the generic sequencing fold `foldE`; the standalone
`assignF`, `unitStepF`, `unitLoopF`, `ruleLoopF`, `elimPeersF`, `elimValsF`
wrappers below are definitionally the pieces of that body, so the code is the
same as the Python, merely factored to break the mutual recursion.  The fuel
is decremented exactly at each nested `eliminate_value` call, matching the
depth of the Python call stack.
-/

/-- `Solver.eliminate_value(possibles, index, value)`.  The local `assign`
is the body of `Solver.assign_value`. -/
def eliminateF (p : Puzzle) : Nat → Poss → Cell → Int → Except PErr Poss
  | 0, _, _, _ => Except.error PErr.fuelOut
  | fuel + 1, s, c, v =>
    let assign : Poss → Cell → Int → Except PErr Poss := fun s c' w =>
      foldE (fun s r => eliminateF p fuel s c' r) ((s c').filter (fun x => x ≠ w)) s
    let unitStep : Poss → List Cell → Except PErr Poss := fun s u =>
      match u.filter (fun q => v ∈ s q) with
      | [] => Except.error PErr.contradiction
      | [place] => assign s place v
      | _ => pure s
    let ruleStep : Poss → Rule × Cell → Except PErr Poss := fun s e =>
      if e.1.op = "e" || e.1.op = "o" then pure s
      else
        (rule_complement e.1 (s c) (p.size : Int)) >>= fun allowed =>
          if (s e.2).filter (fun w => w ∈ allowed) = [] then
            Except.error PErr.contradiction
          else
            foldE (fun s r => eliminateF p fuel s e.2 r)
              ((s e.2).filter (fun w => w ∉ allowed)) s
    if v ∈ s c then
      let d1 := (s c).filter (fun w => w ≠ v)
      let s1 := setp s c d1
      if d1.length = 0 then Except.error PErr.contradiction
      else
        (if d1.length = 1 then
            foldE (fun s c' => eliminateF p fuel s c' (d1.headD 0)) (peersOf p.size c) s1
          else pure s1) >>= fun s2 =>
        foldE unitStep (unitsMap p.size c) s2 >>= fun s3 =>
        foldE ruleStep (ruleConstraints p.rules c) s3
    else pure s

/-- `Solver.assign_value(possibles, index, value)`: eliminate every candidate
of the cell other than `value`. -/
def assignF (p : Puzzle) (fuel : Nat) (s : Poss) (c : Cell) (v : Int) :
    Except PErr Poss :=
  foldE (fun s r => eliminateF p fuel s c r) ((s c).filter (fun x => x ≠ v)) s

/-- The loop `for r in removed: self.eliminate_value(possibles, index, r)`,
shared by `assign_value` and the rule handling of `eliminate_value`. -/
def elimValsF (p : Puzzle) (fuel : Nat) (c : Cell) (vals : List Int) (s : Poss) :
    Except PErr Poss :=
  foldE (fun s r => eliminateF p fuel s c r) vals s

/-- The loop `for c in self.peers[index]: self.eliminate_value(possibles, c, v2)`. -/
def elimPeersF (p : Puzzle) (fuel : Nat) (cs : List Cell) (v2 : Int) (s : Poss) :
    Except PErr Poss :=
  foldE (fun s c' => eliminateF p fuel s c' v2) cs s

/-- The body of the unit loop of `eliminate_value`: collect the places of
`value` in one unit, raise on none, assign on a hidden single. -/
def unitStepF (p : Puzzle) (fuel : Nat) (v : Int) (s : Poss) (u : List Cell) :
    Except PErr Poss :=
  match u.filter (fun q => v ∈ s q) with
  | [] => Except.error PErr.contradiction
  | [place] => assignF p fuel s place v
  | _ => pure s

/-- The loop `for unit in self.units[index]: ...` of `eliminate_value`. -/
def unitLoopF (p : Puzzle) (fuel : Nat) (v : Int) (us : List (List Cell)) (s : Poss) :
    Except PErr Poss :=
  foldE (unitStepF p fuel v) us s

/-- The body of the rule loop of `eliminate_value`: parity entries are
skipped, binary entries narrow the partner to the complement of the keyed
cell's current domain. -/
def ruleStepF (p : Puzzle) (fuel : Nat) (c : Cell) (s : Poss) (e : Rule × Cell) :
    Except PErr Poss :=
  if e.1.op = "e" || e.1.op = "o" then pure s
  else
    (rule_complement e.1 (s c) (p.size : Int)) >>= fun allowed =>
      if (s e.2).filter (fun w => w ∈ allowed) = [] then
        Except.error PErr.contradiction
      else
        elimValsF p fuel e.2 ((s e.2).filter (fun w => w ∉ allowed)) s

/-- The loop `for rule, idx2 in self.rule_constraints[index]: ...` of
`eliminate_value`. -/
def ruleLoopF (p : Puzzle) (fuel : Nat) (c : Cell) (entries : List (Rule × Cell))
    (s : Poss) : Except PErr Poss :=
  foldE (ruleStepF p fuel c) entries s

/-- Unfolding of `eliminateF` at positive fuel in terms of the loop wrappers;
this holds by definition and is the equation used throughout the proofs. -/
theorem eliminateF_succ (p : Puzzle) (fuel : Nat) (s : Poss) (c : Cell) (v : Int) :
    eliminateF p (fuel + 1) s c v =
      if v ∈ s c then
        if ((s c).filter (fun w => w ≠ v)).length = 0 then
          Except.error PErr.contradiction
        else
          (if ((s c).filter (fun w => w ≠ v)).length = 1 then
              elimPeersF p fuel (peersOf p.size c)
                (((s c).filter (fun w => w ≠ v)).headD 0)
                (setp s c ((s c).filter (fun w => w ≠ v)))
            else pure (setp s c ((s c).filter (fun w => w ≠ v)))) >>= fun s2 =>
          unitLoopF p fuel v (unitsMap p.size c) s2 >>= fun s3 =>
          ruleLoopF p fuel c (ruleConstraints p.rules c) s3
      else pure s := rfl

/-- The loop applying the givens in `solve`
(`for idx, v in self.puzzle.givens.items(): self.assign_value(...)`), with the
dict lookup inside `assign_value` guarded. -/
def givenStep (p : Puzzle) (fuel : Nat) (s : Poss) (iv : Cell × Int) :
    Except PErr Poss :=
  if iv.1 ∈ cells p.size then assignF p fuel s iv.1 iv.2
  else Except.error PErr.keyError

def applyGivensF (p : Puzzle) (fuel : Nat) (s : Poss) : Except PErr Poss :=
  foldE (givenStep p fuel) p.givens s

/-- `min(remaining, key=lambda k: len(possibles[k]))`: the first element of
smallest domain length, as Python's `min` returns the first minimum. -/
def argminLen (s : Poss) (best : Cell) (rest : List Cell) : Cell :=
  match rest with
  | [] => best
  | c :: rest =>
    if (s c).length < (s best).length then argminLen s c rest
    else argminLen s best rest

/-- The solved mapping `{k: v[0] for k, v in possibles.items()}`, iterated in
grid order, as an association list. -/
def extractSol (n : Nat) (s : Poss) : List (Cell × Int) :=
  (cells n).map (fun c => (c, (s c).headD 0))

/-- The loop `for value in possibles[min_idx]: try ... except Contradiction`:
return the first branch that succeeds, skip branches raising `Contradiction`,
propagate any other exception, raise `Contradiction` when all branches are
exhausted. -/
def tryBranches (f : Int → Except PErr (List (Cell × Int))) :
    List Int → Except PErr (List (Cell × Int))
  | [] => Except.error PErr.contradiction
  | v :: rest =>
    match f v with
    | Except.ok m => Except.ok m
    | Except.error PErr.contradiction => tryBranches f rest
    | Except.error e => Except.error e

/-- `Solver.search(possibles)`.  An empty `remaining` makes Python's `min`
raise `ValueError` (`minEmpty`); each branch assigns on a fresh copy of the
parent's domain state and recurses. -/
def searchF (p : Puzzle) : Nat → Poss → Except PErr (List (Cell × Int))
  | 0, _ => Except.error PErr.fuelOut
  | fuel + 1, s =>
    if (cells p.size).all (fun c => (s c).length = 1) then
      pure (extractSol p.size s)
    else
      match (cells p.size).filter (fun c => 1 < (s c).length) with
      | [] => Except.error PErr.minEmpty
      | c0 :: rest =>
        let minIdx := argminLen s c0 rest
        tryBranches
          (fun v => (assignF p fuel s minIdx v).bind (fun s' => searchF p fuel s'))
          (s minIdx)

/-- `Solver.solve()`: seed the domains, apply the givens (outside the
`try`), run the search with only `Contradiction` mapped to the user-facing
`ValueError` (`noSolution`). -/
def solveF (p : Puzzle) (fuel : Nat) : Except PErr (List (Cell × Int)) := do
  let s0 ← seed p
  let s1 ← applyGivensF p fuel s0
  match searchF p fuel s1 with
  | Except.ok m => Except.ok m
  | Except.error PErr.contradiction => Except.error PErr.noSolution
  | Except.error e => Except.error e

/-- Fuel that always suffices (proved below): the total number of candidates
of the fresh state (`size³`), plus one for the deepest nested call and one
for the top search call.  `mes` is the total candidate count over the grid. -/
def bigFuel (p : Puzzle) : Nat :=
  mes p.size (initPoss p.size) + 2

/-- The top-level solver with ample fuel. -/
def solve (p : Puzzle) : Except PErr (List (Cell × Int)) :=
  solveF p (bigFuel p)


/-!
A store-level model of the propagator, for the frame property of the search
branches (sibling isolation).  The Python functions mutate the dict passed to
them through a reference, and `search` copies (`next_possibles =
dict(possibles)`) before every branch.  A `Heap` is a list of domain states
indexed by address; every read of `possibles` goes through `readH` at the
function's address argument, and every Python statement
`possibles[index] = X` becomes `writeH` at that address.  Candidate tuples
are immutable in Python, so domains are stored by value.  An exception leaves
the mutations made so far in place, hence results pair the final heap with an
optional error.
-/

/-- The heap: allocated dicts, indexed by address. -/
abbrev Heap := List Poss

/-- The all-empty domain state, the read default for out-of-range addresses
(never reached at allocated addresses). -/
def pempty : Poss := fun _ => []

/-- Dereference the dict at address `a`. -/
def readH (h : Heap) (a : Nat) : Poss := h.getD a pempty

/-- Mutate one key of the dict at address `a`. -/
def writeH (h : Heap) (a : Nat) (c : Cell) (d : List Int) : Heap :=
  h.set a (setp (readH h a) c d)

/-- Sequential loop of heap-mutating fallible actions, stopping at the first
exception and keeping the mutations made before it. -/
def foldH (f : Heap → α → Heap × Option PErr) : List α → Heap → Heap × Option PErr
  | [], h => (h, none)
  | x :: rest, h =>
    match f h x with
    | (h', none) => foldH f rest h'
    | (h', some e) => (h', some e)

/-- The peer-elimination stage of `eliminate_value` on the heap (`elim` is
the recursive call at the enclosing fuel level, fixed to the same dict
address). -/
def peersStageH (p : Puzzle) (elim : Heap → Cell → Int → Heap × Option PErr)
    (c : Cell) (d1 : List Int) (h1 : Heap) : Heap × Option PErr :=
  if d1.length = 1 then
    foldH (fun hh c' => elim hh c' (d1.headD 0)) (peersOf p.size c) h1
  else (h1, none)

/-- The unit-scan stage of `eliminate_value` on the heap; the hidden-single
branch is the inlined body of `assign_value`. -/
def unitStepH (elim : Heap → Cell → Int → Heap × Option PErr) (a : Nat)
    (v : Int) (h : Heap) (u : List Cell) : Heap × Option PErr :=
  match u.filter (fun q => v ∈ readH h a q) with
  | [] => (h, some PErr.contradiction)
  | [place] =>
    foldH (fun hh r => elim hh place r)
      ((readH h a place).filter (fun x => x ≠ v)) h
  | _ => (h, none)

/-- The rule-propagation stage of `eliminate_value` on the heap. -/
def ruleStepH (p : Puzzle) (elim : Heap → Cell → Int → Heap × Option PErr)
    (a : Nat) (c : Cell) (h : Heap) (e : Rule × Cell) : Heap × Option PErr :=
  if e.1.op = "e" || e.1.op = "o" then (h, none)
  else
    match rule_complement e.1 (readH h a c) (p.size : Int) with
    | Except.error er => (h, some er)
    | Except.ok allowed =>
      if (readH h a e.2).filter (fun w => w ∈ allowed) = [] then
        (h, some PErr.contradiction)
      else
        foldH (fun hh r => elim hh e.2 r)
          ((readH h a e.2).filter (fun w => w ∉ allowed)) h

/-- `Solver.eliminate_value` acting on the dict at address `a`: statement by
statement the code of `eliminateF`, with dict reads and writes made explicit
through the heap. -/
def eliminateH (p : Puzzle) : Nat → Heap → Nat → Cell → Int → Heap × Option PErr
  | 0, h, _, _, _ => (h, some PErr.fuelOut)
  | fuel + 1, h, a, c, v =>
    if v ∈ readH h a c then
      if ((readH h a c).filter (fun w => w ≠ v)).length = 0 then
        (writeH h a c ((readH h a c).filter (fun w => w ≠ v)),
          some PErr.contradiction)
      else
        match peersStageH p (fun hh c' w => eliminateH p fuel hh a c' w) c
            ((readH h a c).filter (fun w => w ≠ v))
            (writeH h a c ((readH h a c).filter (fun w => w ≠ v))) with
        | (h2, some e) => (h2, some e)
        | (h2, none) =>
          match foldH (unitStepH (fun hh c' w => eliminateH p fuel hh a c' w) a v)
              (unitsMap p.size c) h2 with
          | (h3, some e) => (h3, some e)
          | (h3, none) =>
            foldH (ruleStepH p (fun hh c' w => eliminateH p fuel hh a c' w) a c)
              (ruleConstraints p.rules c) h3
    else (h, none)

/-- `Solver.assign_value` on the dict at address `a`. -/
def assignH (p : Puzzle) (fuel : Nat) (h : Heap) (a : Nat) (c : Cell) (v : Int) :
    Heap × Option PErr :=
  foldH (fun hh r => eliminateH p fuel hh a c r)
    ((readH h a c).filter (fun x => x ≠ v)) h

/-- The statement `next_possibles = dict(possibles)` of one search branch:
allocate a fresh dict holding a copy of the one at `a`.  The new dict's
address is `h.length`. -/
def copyH (h : Heap) (a : Nat) : Heap := h ++ [readH h a]


/-!
Predicates used throughout the verification: postconditions of propagation
steps and validity of the static puzzle data.
-/

/-- Postcondition of every successful propagation step: domains only shrink
(as sublists, so order is preserved), and no nonempty domain is emptied
(emptying raises `Contradiction` instead). -/
def PostOK (s s' : Poss) : Prop :=
  (∀ x, (s' x).Sublist (s x)) ∧ (∀ x, s x ≠ [] → s' x ≠ [])

/-- Every `(rule, partner)` entry attached to a grid cell has its partner on
the grid (true exactly when all anchors are in `[0, size−2]` on both axes). -/
def ValidGeom (p : Puzzle) : Prop :=
  ∀ c ∈ cells p.size, ∀ e ∈ ruleConstraints p.rules c, e.2 ∈ cells p.size

/-- All operator tags are known, and quotient targets are nonzero (a zero
quotient target makes the Python raise `ZeroDivisionError`). -/
def CleanOps (p : Puzzle) : Prop :=
  ∀ ar ∈ p.rules,
    (ar.2.op = "+" ∨ ar.2.op = "-" ∨ ar.2.op = "*" ∨ ar.2.op = "/" ∨
      ar.2.op = "e" ∨ ar.2.op = "o") ∧ (ar.2.op = "/" → ar.2.value ≠ 0)

/-- All candidate values are positive (true of every reachable domain state). -/
def PosDoms (s : Poss) : Prop := ∀ x, ∀ w ∈ s x, 0 < w

/-- No domain repeats a candidate (true of every reachable domain state). -/
def NodupDoms (s : Poss) : Prop := ∀ x, (s x).Nodup

/-- The two possible outcomes of a propagation step under valid static data:
success, or the control-flow `Contradiction`. -/
def OkOrContra (x : Except PErr Poss) : Prop :=
  (∃ s', x = Except.ok s') ∨ x = Except.error PErr.contradiction

/-- Shape of the induction hypothesis of the progress proof: progress of
`eliminate_value` at one fuel level. -/
def ElimProg (p : Puzzle) (f : Nat) : Prop :=
  ∀ s c v, PosDoms s → c ∈ cells p.size → mes p.size s < f →
    OkOrContra (eliminateF p f s c v)

/-- Pointwise shrinking of domain states. -/
def Shrinks (s s' : Poss) : Prop := ∀ x, (s' x).Sublist (s x)

instance (p : Puzzle) : Decidable (CleanOps p) := by
  unfold CleanOps
  infer_instance

instance (p : Puzzle) : Decidable (ValidGeom p) := by
  unfold ValidGeom
  infer_instance

/-!
Infrastructure lemmas: the domain update, the grid geometry, the candidate
measure used for fuel bounds, and the generic loop combinators.
-/

theorem setp_self (s : Poss) (c : Cell) (d : List Int) : setp s c d c = d := by
  simp [setp]

theorem setp_other (s : Poss) (c c' : Cell) (d : List Int) (h : c' ≠ c) :
    setp s c d c' = s c' := by
  simp [setp, h]

theorem mem_cells {n : Nat} {c : Cell} : c ∈ cells n ↔ c.1 < n ∧ c.2 < n := by
  obtain ⟨a, b⟩ := c
  constructor
  · intro h
    simp only [cells, List.mem_flatMap, List.mem_map, List.mem_range] at h
    obtain ⟨x, hx, y, hy, hxy⟩ := h
    cases hxy
    exact ⟨hx, hy⟩
  · intro ⟨h1, h2⟩
    simp only [cells, List.mem_flatMap, List.mem_map, List.mem_range]
    exact ⟨a, h1, b, h2, rfl⟩

theorem unitsMap_mem_cells {n : Nat} {c q : Cell} {u : List Cell}
    (hu : u ∈ unitsMap n c) (hq : q ∈ u) : q ∈ cells n := by
  have hu' : u ∈ allUnits n := List.mem_of_mem_filter hu
  simp only [allUnits, List.mem_append, List.mem_map, List.mem_range] at hu'
  rcases hu' with ⟨i, hi, rfl⟩ | ⟨i, hi, rfl⟩
  · simp only [List.mem_map, List.mem_range] at hq
    obtain ⟨x, hx, rfl⟩ := hq
    exact mem_cells.mpr ⟨hx, hi⟩
  · simp only [List.mem_map, List.mem_range] at hq
    obtain ⟨x, hx, rfl⟩ := hq
    exact mem_cells.mpr ⟨hi, hx⟩

theorem peersOf_mem_cells {n : Nat} {c q : Cell} (hq : q ∈ peersOf n c) :
    q ∈ cells n := by
  have hq' := List.mem_of_mem_filter hq
  simp only [List.mem_flatten] at hq'
  obtain ⟨u, hu, hqu⟩ := hq'
  exact unitsMap_mem_cells hu hqu

theorem sum_map_le {α : Type} (l : List α) (g g' : α → Nat)
    (h : ∀ x ∈ l, g' x ≤ g x) : (l.map g').sum ≤ (l.map g).sum := by
  induction l with
  | nil => simp
  | cons a t ih =>
    simp only [List.map_cons, List.sum_cons]
    exact Nat.add_le_add (h a (List.mem_cons_self a t))
      (ih fun x hx => h x (List.mem_cons_of_mem a hx))

theorem sum_map_lt {α : Type} (l : List α) (g g' : α → Nat)
    (h : ∀ x ∈ l, g' x ≤ g x) (c : α) (hc : c ∈ l) (hlt : g' c < g c) :
    (l.map g').sum < (l.map g).sum := by
  induction l with
  | nil => cases hc
  | cons a t ih =>
    simp only [List.map_cons, List.sum_cons]
    rcases List.mem_cons.mp hc with rfl | hct
    · have h2 := sum_map_le t g g' fun x hx => h x (List.mem_cons_of_mem c hx)
      omega
    · have h1 := h a (List.mem_cons_self a t)
      have h2 := ih (fun x hx => h x (List.mem_cons_of_mem a hx)) hct
      omega

theorem length_filter_lt_of_mem {p : Int → Bool} {d : List Int} {v : Int}
    (hv : v ∈ d) (hpv : p v = false) : (d.filter p).length < d.length := by
  induction d with
  | nil => cases hv
  | cons a t ih =>
    rw [List.filter_cons]
    by_cases hp : p a = true
    · rw [if_pos hp]
      have hvt : v ∈ t := by
        rcases List.mem_cons.mp hv with rfl | h
        · rw [hpv] at hp
          exact absurd hp (by simp)
        · exact h
      simpa using Nat.succ_lt_succ (ih hvt)
    · rw [if_neg hp]
      have := List.length_filter_le p t
      simp only [List.length_cons]
      omega

theorem length_filter_ne_lt {d : List Int} {v : Int} (hv : v ∈ d) :
    (d.filter (fun w => w ≠ v)).length < d.length :=
  length_filter_lt_of_mem hv (by simp)

theorem mes_mono {n : Nat} {s s' : Poss} (h : ∀ x, (s' x).Sublist (s x)) :
    mes n s' ≤ mes n s :=
  sum_map_le _ _ _ fun x _ => (h x).length_le

theorem mes_removal_lt {n : Nat} {s : Poss} {c : Cell} {v : Int}
    (hc : c ∈ cells n) (hv : v ∈ s c) :
    mes n (setp s c ((s c).filter (fun w => w ≠ v))) < mes n s := by
  refine sum_map_lt _ _ _ (fun x _ => ?_) c hc ?_
  · by_cases hx : x = c
    · subst hx
      rw [setp_self]
      exact Nat.le_of_lt (length_filter_ne_lt hv)
    · rw [setp_other _ _ _ _ hx]
  · rw [setp_self]
    exact length_filter_ne_lt hv


theorem postOK_refl (s : Poss) : PostOK s s :=
  ⟨fun _ => List.Sublist.refl _, fun _ h => h⟩

theorem postOK_trans {s t u : Poss} (h1 : PostOK s t) (h2 : PostOK t u) :
    PostOK s u :=
  ⟨fun x => (h2.1 x).trans (h1.1 x), fun x hx => h2.2 x (h1.2 x hx)⟩

theorem bindE_ok {α β : Type} {x : Except PErr α} {f : α → Except PErr β} {b : β}
    (h : x >>= f = Except.ok b) : ∃ a, x = Except.ok a ∧ f a = Except.ok b := by
  cases x with
  | ok a => exact ⟨a, rfl, h⟩
  | error e => exact Except.noConfusion h

theorem foldE_nil {α : Type} (f : Poss → α → Except PErr Poss) (s : Poss) :
    foldE f [] s = Except.ok s := rfl

theorem foldE_cons {α : Type} (f : Poss → α → Except PErr Poss) (x : α)
    (rest : List α) (s : Poss) :
    foldE f (x :: rest) s = (f s x) >>= fun s' => foldE f rest s' := rfl

theorem foldE_post {α : Type} {f : Poss → α → Except PErr Poss}
    {R : Poss → Poss → Prop} (hrefl : ∀ s, R s s)
    (htrans : ∀ {a b c : Poss}, R a b → R b c → R a c) (l : List α)
    (hf : ∀ s x, x ∈ l → ∀ s', f s x = Except.ok s' → R s s') :
    ∀ s s', foldE f l s = Except.ok s' → R s s' := by
  induction l with
  | nil =>
    intro s s' h
    rw [foldE_nil] at h
    cases h
    exact hrefl s
  | cons a t ih =>
    intro s s' h
    rw [foldE_cons] at h
    obtain ⟨m, hm, hrest⟩ := bindE_ok h
    exact htrans (hf s a (List.mem_cons_self a t) m hm)
      (ih (fun s x hx => hf s x (List.mem_cons_of_mem a hx)) m s' hrest)

theorem foldE_ok_each {α : Type} {f : Poss → α → Except PErr Poss} (l : List α) :
    ∀ s s', foldE f l s = Except.ok s' → ∀ x ∈ l, ∃ t t', f t x = Except.ok t' := by
  induction l with
  | nil => intro s s' _ x hx; cases hx
  | cons a t ih =>
    intro s s' h x hx
    rw [foldE_cons] at h
    obtain ⟨m, hm, hrest⟩ := bindE_ok h
    rcases List.mem_cons.mp hx with rfl | hxt
    · exact ⟨s, m, hm⟩
    · exact ih m s' hrest x hxt

theorem foldE_progress {α : Type} {f : Poss → α → Except PErr Poss}
    (Inv : Poss → Prop) (l : List α)
    (hf : ∀ s x, x ∈ l → Inv s →
      (∃ s', f s x = Except.ok s' ∧ Inv s') ∨ f s x = Except.error PErr.contradiction) :
    ∀ s, Inv s → (∃ s', foldE f l s = Except.ok s') ∨
      foldE f l s = Except.error PErr.contradiction := by
  induction l with
  | nil => intro s _; exact Or.inl ⟨s, rfl⟩
  | cons a t ih =>
    intro s hs
    rcases hf s a (List.mem_cons_self a t) hs with ⟨s1, h1, hinv1⟩ | herr
    · rw [foldE_cons, h1]
      exact ih (fun s x hx => hf s x (List.mem_cons_of_mem a hx)) s1 hinv1
    · rw [foldE_cons, herr]
      exact Or.inr rfl

theorem foldE_forces {α : Type} {f : Poss → α → Except PErr Poss}
    (Inv : Poss → Prop) {e₀ : PErr} (l : List α)
    (hstep : ∀ s x, x ∈ l → Inv s →
      (∃ s', f s x = Except.ok s' ∧ Inv s') ∨ f s x = Except.error e₀)
    (x₀ : α) (hx : x₀ ∈ l) (hbad : ∀ s, Inv s → f s x₀ = Except.error e₀) :
    ∀ s, Inv s → foldE f l s = Except.error e₀ := by
  induction l with
  | nil => cases hx
  | cons a t ih =>
    intro s hs
    by_cases ha : a = x₀
    · subst ha
      rw [foldE_cons, hbad s hs]
      rfl
    · rcases hstep s a (List.mem_cons_self a t) hs with ⟨s1, h1, hinv1⟩ | herr
      · rw [foldE_cons, h1]
        have hx' : x₀ ∈ t := by
          rcases List.mem_cons.mp hx with h | h
          · exact absurd h.symm ha
          · exact h
        exact ih (fun s x hxm => hstep s x (List.mem_cons_of_mem a hxm)) hx' s1 hinv1
      · rw [foldE_cons, herr]
        rfl

theorem tryBranches_ok {f : Int → Except PErr (List (Cell × Int))} :
    ∀ (l : List Int) (m : List (Cell × Int)), tryBranches f l = Except.ok m →
      ∃ v ∈ l, f v = Except.ok m := by
  intro l
  induction l with
  | nil => intro m h; exact Except.noConfusion h
  | cons a t ih =>
    intro m h
    unfold tryBranches at h
    revert h
    split
    · rename_i m' heq
      intro h
      cases h
      exact ⟨a, List.mem_cons_self a t, heq⟩
    · intro h
      obtain ⟨v, hv, hfv⟩ := ih m h
      exact ⟨v, List.mem_cons_of_mem a hv, hfv⟩
    · intro h
      exact Except.noConfusion h

theorem tryBranches_ne_fuelOut {f : Int → Except PErr (List (Cell × Int))} :
    ∀ l : List Int, (∀ v ∈ l, f v ≠ Except.error PErr.fuelOut) →
      tryBranches f l ≠ Except.error PErr.fuelOut := by
  intro l
  induction l with
  | nil =>
    intro _ h
    exact PErr.noConfusion (Except.error.inj h)
  | cons a t ih =>
    intro hf
    unfold tryBranches
    split
    · intro h; exact Except.noConfusion h
    · exact ih fun v hv => hf v (List.mem_cons_of_mem a hv)
    · rename_i e hne heq
      intro h
      cases Except.error.inj h
      exact hf a (List.mem_cons_self a t) heq


/-!
The postcondition suite of the propagator: on success domains only shrink and
nonempty domains stay nonempty, by induction on the fuel, the loop lemmas
being derived at each fuel level from the induction hypothesis.
-/

theorem setp_filter_postOK {s : Poss} {c : Cell} {v : Int}
    (hne : (s c).filter (fun w => w ≠ v) ≠ []) :
    PostOK s (setp s c ((s c).filter (fun w => w ≠ v))) := by
  constructor
  · intro x
    by_cases hx : x = c
    · subst hx
      rw [setp_self]
      exact List.filter_sublist _
    · rw [setp_other _ _ _ _ hx]
  · intro x hx
    by_cases hxc : x = c
    · subst hxc
      rw [setp_self]
      exact hne
    · rw [setp_other _ _ _ _ hxc]
      exact hx

theorem elim_post (p : Puzzle) :
    ∀ fuel s c v s', eliminateF p fuel s c v = Except.ok s' → PostOK s s' := by
  intro fuel
  induction fuel with
  | zero =>
    intro s c v s' h
    exact Except.noConfusion h
  | succ f ih =>
    have hvals : ∀ (c : Cell) (vals : List Int) (s s' : Poss),
        elimValsF p f c vals s = Except.ok s' → PostOK s s' := fun c vals =>
      foldE_post postOK_refl postOK_trans vals (fun s x _ s' h => ih s c x s' h)
    have hassign : ∀ (s : Poss) (c : Cell) (v : Int) (s' : Poss),
        assignF p f s c v = Except.ok s' → PostOK s s' := fun s c v s' h =>
      hvals c ((s c).filter (fun x => x ≠ v)) s s' h
    have hpeers : ∀ (cs : List Cell) (v2 : Int) (s s' : Poss),
        elimPeersF p f cs v2 s = Except.ok s' → PostOK s s' := fun cs v2 =>
      foldE_post postOK_refl postOK_trans cs (fun s x _ s' h => ih s x v2 s' h)
    have hunitStep : ∀ (v : Int) (s : Poss) (u : List Cell) (s' : Poss),
        unitStepF p f v s u = Except.ok s' → PostOK s s' := by
      intro v s u s' h
      unfold unitStepF at h
      split at h
      · exact Except.noConfusion h
      · exact hassign s _ v s' h
      · cases h
        exact postOK_refl s
    have hunitLoop : ∀ (v : Int) (us : List (List Cell)) (s s' : Poss),
        unitLoopF p f v us s = Except.ok s' → PostOK s s' := fun v us =>
      foldE_post postOK_refl postOK_trans us (fun s x _ s' h => hunitStep v s x s' h)
    have hruleStep : ∀ (c : Cell) (s : Poss) (e : Rule × Cell) (s' : Poss),
        ruleStepF p f c s e = Except.ok s' → PostOK s s' := by
      intro c s e s' h
      unfold ruleStepF at h
      split at h
      · cases h
        exact postOK_refl s
      · obtain ⟨allowed, _, h2⟩ := bindE_ok h
        revert h2
        split
        · intro h2
          exact Except.noConfusion h2
        · intro h2
          exact hvals e.2 _ s s' h2
    intro s c v s' h
    rw [eliminateF_succ] at h
    by_cases hv : v ∈ s c
    · rw [if_pos hv] at h
      by_cases hlen : ((s c).filter (fun w => w ≠ v)).length = 0
      · rw [if_pos hlen] at h
        exact Except.noConfusion h
      · rw [if_neg hlen] at h
        obtain ⟨s2, h2, hrest⟩ := bindE_ok h
        obtain ⟨s3, h3, h4⟩ := bindE_ok hrest
        have post1 : PostOK s (setp s c ((s c).filter (fun w => w ≠ v))) :=
          setp_filter_postOK (fun hemp => hlen (by rw [hemp]; rfl))
        have post2 : PostOK (setp s c ((s c).filter (fun w => w ≠ v))) s2 := by
          by_cases h1 : ((s c).filter (fun w => w ≠ v)).length = 1
          · rw [if_pos h1] at h2
            exact hpeers _ _ _ _ h2
          · rw [if_neg h1] at h2
            cases h2
            exact postOK_refl _
        have post3 := hunitLoop v _ s2 s3 h3
        have post4 : PostOK s3 s' :=
          foldE_post postOK_refl postOK_trans _
            (fun s x _ s' h => hruleStep c s x s' h) s3 s' h4
        exact postOK_trans post1 (postOK_trans post2 (postOK_trans post3 post4))
    · rw [if_neg hv] at h
      cases h
      exact postOK_refl s

theorem assign_post (p : Puzzle) (fuel : Nat) {s : Poss} {c : Cell} {v : Int}
    {s' : Poss} (h : assignF p fuel s c v = Except.ok s') : PostOK s s' :=
  foldE_post postOK_refl postOK_trans _
    (fun s x _ s' hx => elim_post p fuel s c x s' hx) s s' h


/-!
Derived postcondition lemmas for the loop wrappers, and removal facts.
-/

theorem bindE_okl {α β : Type} (a : α) (f : α → Except PErr β) :
    (Except.ok a : Except PErr α) >>= f = f a := rfl

theorem bindE_errl {α β : Type} (e : PErr) (f : α → Except PErr β) :
    (Except.error e : Except PErr α) >>= f = Except.error e := rfl

theorem elimVals_post (p : Puzzle) (fuel : Nat) (c : Cell) (vals : List Int)
    {s s' : Poss} (h : elimValsF p fuel c vals s = Except.ok s') : PostOK s s' :=
  foldE_post postOK_refl postOK_trans vals
    (fun s x _ s' hx => elim_post p fuel s c x s' hx) s s' h

theorem elimPeers_post (p : Puzzle) (fuel : Nat) (cs : List Cell) (v2 : Int)
    {s s' : Poss} (h : elimPeersF p fuel cs v2 s = Except.ok s') : PostOK s s' :=
  foldE_post postOK_refl postOK_trans cs
    (fun s x _ s' hx => elim_post p fuel s x v2 s' hx) s s' h

theorem unitStep_post (p : Puzzle) (fuel : Nat) (v : Int) {s : Poss}
    {u : List Cell} {s' : Poss} (h : unitStepF p fuel v s u = Except.ok s') :
    PostOK s s' := by
  unfold unitStepF at h
  split at h
  · exact Except.noConfusion h
  · exact assign_post p fuel h
  · cases h
    exact postOK_refl s

theorem unitLoop_post (p : Puzzle) (fuel : Nat) (v : Int) (us : List (List Cell))
    {s s' : Poss} (h : unitLoopF p fuel v us s = Except.ok s') : PostOK s s' :=
  foldE_post postOK_refl postOK_trans us
    (fun s x _ s' hx => unitStep_post p fuel v hx) s s' h

theorem ruleStep_post (p : Puzzle) (fuel : Nat) (c : Cell) {s : Poss}
    {e : Rule × Cell} {s' : Poss} (h : ruleStepF p fuel c s e = Except.ok s') :
    PostOK s s' := by
  unfold ruleStepF at h
  split at h
  · cases h
    exact postOK_refl s
  · obtain ⟨allowed, _, h2⟩ := bindE_ok h
    revert h2
    split
    · intro h2
      exact Except.noConfusion h2
    · intro h2
      exact elimVals_post p fuel e.2 _ h2

theorem ruleLoop_post (p : Puzzle) (fuel : Nat) (c : Cell)
    (entries : List (Rule × Cell)) {s s' : Poss}
    (h : ruleLoopF p fuel c entries s = Except.ok s') : PostOK s s' :=
  foldE_post postOK_refl postOK_trans entries
    (fun s x _ s' hx => ruleStep_post p fuel c hx) s s' h

theorem not_mem_filter_ne (d : List Int) (v : Int) :
    v ∉ d.filter (fun w => w ≠ v) := by
  intro h
  have := List.of_mem_filter h
  simp at this

/-- On success, `eliminate_value` has really removed the value: it never
reappears (nothing is ever added back to any domain). -/
theorem elim_removes (p : Puzzle) (fuel : Nat) {s : Poss} {c : Cell} {v : Int}
    {s' : Poss} (h : eliminateF p fuel s c v = Except.ok s') : v ∉ s' c := by
  match fuel with
  | 0 => exact Except.noConfusion h
  | f + 1 =>
    rw [eliminateF_succ] at h
    by_cases hv : v ∈ s c
    · rw [if_pos hv] at h
      by_cases hlen : ((s c).filter (fun w => w ≠ v)).length = 0
      · rw [if_pos hlen] at h
        exact Except.noConfusion h
      · rw [if_neg hlen] at h
        obtain ⟨s2, h2, hrest⟩ := bindE_ok h
        obtain ⟨s3, h3, h4⟩ := bindE_ok hrest
        have hsub2 : (s2 c).Sublist ((s c).filter (fun w => w ≠ v)) := by
          by_cases h1 : ((s c).filter (fun w => w ≠ v)).length = 1
          · rw [if_pos h1] at h2
            have := (elimPeers_post p f _ _ h2).1 c
            rwa [setp_self] at this
          · rw [if_neg h1] at h2
            cases h2
            rw [setp_self]
        have hsub3 := (unitLoop_post p f v _ h3).1 c
        have hsub4 := (ruleLoop_post p f c _ h4).1 c
        intro hmem
        exact not_mem_filter_ne (s c) v
          (hsub2.subset (hsub3.subset (hsub4.subset hmem)))
    · rw [if_neg hv] at h
      cases h
      exact hv

theorem elimVals_removes (p : Puzzle) (fuel : Nat) (c : Cell) :
    ∀ (vals : List Int) (s s' : Poss), elimValsF p fuel c vals s = Except.ok s' →
      ∀ r ∈ vals, r ∉ s' c := by
  intro vals
  induction vals with
  | nil => intro s s' _ r hr; cases hr
  | cons a t ih =>
    intro s s' h r hr
    rw [show elimValsF p fuel c (a :: t) s =
        (eliminateF p fuel s c a) >>= fun s1 => elimValsF p fuel c t s1 from rfl] at h
    obtain ⟨s1, h1, hrest⟩ := bindE_ok h
    rcases List.mem_cons.mp hr with rfl | hrt
    · have hr1 := elim_removes p fuel h1
      have hsub := (elimVals_post p fuel c t hrest).1 c
      exact fun hmem => hr1 (hsub.subset hmem)
    · exact ih s1 s' hrest r hrt

/-- On success, `assign_value(possibles, index, value)` leaves the cell's
domain inside `{value}`. -/
theorem assign_subset (p : Puzzle) (fuel : Nat) {s : Poss} {c : Cell} {v : Int}
    {s' : Poss} (h : assignF p fuel s c v = Except.ok s') :
    ∀ x ∈ s' c, x = v := by
  intro x hx
  have hsub := (assign_post p fuel h).1 c
  by_contra hxv
  have hxs : x ∈ s c := hsub.subset hx
  have hxf : x ∈ (s c).filter (fun w => w ≠ v) := by
    simp only [List.mem_filter, decide_eq_true_eq]
    exact ⟨hxs, by simpa using hxv⟩
  exact elimVals_removes p fuel c _ s s' h x hxf hx

/-!
Validity of the static data and progress: with in-range rule anchors, known
operator tags, nonzero quotient targets and positive domains, the propagator
either succeeds or raises `Contradiction` — no other exception and no fuel
exhaustion once the fuel exceeds the candidate measure.
-/


theorem posDoms_of_post {s s' : Poss} (h : PostOK s s') (hp : PosDoms s) :
    PosDoms s' := fun x w hw => hp x w ((h.1 x).subset hw)

theorem nodupDoms_of_post {s s' : Poss} (h : PostOK s s') (hn : NodupDoms s) :
    NodupDoms s' := fun x => (hn x).sublist (h.1 x)

/-- Unpacking membership in the rule-constraint table. -/
theorem ruleConstraints_spec {rules : List (Cell × Rule)} {c : Cell}
    {e : Rule × Cell} (he : e ∈ ruleConstraints rules c) :
    ∃ ar ∈ rules, e.1 = ar.2 ∧
      ((c = (ar.1.1, ar.1.2) ∧ e.2 = (ar.1.1 + 1, ar.1.2 + 1)) ∨
        (c = (ar.1.1 + 1, ar.1.2) ∧ e.2 = (ar.1.1, ar.1.2 + 1)) ∨
        (c = (ar.1.1, ar.1.2 + 1) ∧ e.2 = (ar.1.1 + 1, ar.1.2)) ∨
        (c = (ar.1.1 + 1, ar.1.2 + 1) ∧ e.2 = (ar.1.1, ar.1.2))) := by
  simp only [ruleConstraints, List.mem_filterMap] at he
  obtain ⟨ar, har, hf⟩ := he
  refine ⟨ar, har, ?_⟩
  split_ifs at hf with h1 h2 h3 h4
  · cases Option.some.inj hf
    exact ⟨rfl, Or.inl ⟨h1, rfl⟩⟩
  · cases Option.some.inj hf
    exact ⟨rfl, Or.inr (Or.inl ⟨h2, rfl⟩)⟩
  · cases Option.some.inj hf
    exact ⟨rfl, Or.inr (Or.inr (Or.inl ⟨h3, rfl⟩))⟩
  · cases Option.some.inj hf
    exact ⟨rfl, Or.inr (Or.inr (Or.inr ⟨h4, rfl⟩))⟩

theorem rule_inverse_ok {r : Rule} {m : Int}
    (hop : r.op = "+" ∨ r.op = "-" ∨ r.op = "*" ∨ r.op = "/")
    (hq : r.op = "/" → r.value ≠ 0) {v : Int} (hv : 0 < v) :
    ∃ out, rule_inverse r v m = Except.ok out := by
  rcases hop with h | h | h | h
  · exact ⟨_, by unfold rule_inverse; rw [if_pos h]; rfl⟩
  · exact ⟨_, by unfold rule_inverse; rw [if_neg (by simp [h]), if_pos h]; rfl⟩
  · have hv0 : ¬v = 0 := by omega
    exact ⟨_, by
      unfold rule_inverse
      rw [if_neg (by simp [h]), if_neg (by simp [h]), if_pos h, if_neg hv0]
      rfl⟩
  · have ht0 : ¬r.value = 0 := hq h
    exact ⟨_, by
      unfold rule_inverse
      rw [if_neg (by simp [h]), if_neg (by simp [h]), if_neg (by simp [h]),
        if_pos h, if_neg ht0]
      rfl⟩

theorem rule_complement_ok {r : Rule} {m : Int}
    (hop : r.op = "+" ∨ r.op = "-" ∨ r.op = "*" ∨ r.op = "/")
    (hq : r.op = "/" → r.value ≠ 0) :
    ∀ vals : List Int, (∀ w ∈ vals, 0 < w) →
      ∃ out, rule_complement r vals m = Except.ok out := by
  intro vals
  induction vals with
  | nil => exact fun _ => ⟨[], rfl⟩
  | cons a t ih =>
    intro hpos
    obtain ⟨inv, hinv⟩ :=
      rule_inverse_ok hop hq (m := m) (hpos a (List.mem_cons_self a t))
    obtain ⟨tailU, htail⟩ := ih fun w hw => hpos w (List.mem_cons_of_mem a hw)
    exact ⟨inv ++ tailU, by
      rw [show rule_complement r (a :: t) m =
          (rule_inverse r a m) >>= (fun inv =>
            (rule_complement r t m) >>= fun tailU => pure (inv ++ tailU)) from rfl,
        hinv, bindE_okl, htail, bindE_okl]
      rfl⟩



theorem elimVals_progress (p : Puzzle) (f : Nat) (hE : ElimProg p f) (c : Cell)
    (hc : c ∈ cells p.size) (B : Nat) (hB : B < f) (vals : List Int) :
    ∀ s, PosDoms s → mes p.size s ≤ B → OkOrContra (elimValsF p f c vals s) := by
  intro s hp hm
  exact foldE_progress (fun t => PosDoms t ∧ mes p.size t ≤ B) vals
    (fun t x _ ht => by
      rcases hE t c x ht.1 hc (Nat.lt_of_le_of_lt ht.2 hB) with ⟨t', ht'⟩ | herr
      · have hpost := elim_post p f t c x t' ht'
        exact Or.inl ⟨t', ht', posDoms_of_post hpost ht.1,
          Nat.le_trans (mes_mono hpost.1) ht.2⟩
      · exact Or.inr herr) s ⟨hp, hm⟩

theorem elimCells_progress (p : Puzzle) (f : Nat) (hE : ElimProg p f) (v2 : Int)
    (cs : List Cell) (hcs : ∀ x ∈ cs, x ∈ cells p.size) (B : Nat) (hB : B < f) :
    ∀ s, PosDoms s → mes p.size s ≤ B → OkOrContra (elimPeersF p f cs v2 s) := by
  intro s hp hm
  exact foldE_progress (fun t => PosDoms t ∧ mes p.size t ≤ B) cs
    (fun t x hx ht => by
      rcases hE t x v2 ht.1 (hcs x hx) (Nat.lt_of_le_of_lt ht.2 hB) with ⟨t', ht'⟩ | herr
      · have hpost := elim_post p f t x v2 t' ht'
        exact Or.inl ⟨t', ht', posDoms_of_post hpost ht.1,
          Nat.le_trans (mes_mono hpost.1) ht.2⟩
      · exact Or.inr herr) s ⟨hp, hm⟩

theorem assign_progress_of (p : Puzzle) (f : Nat) (hE : ElimProg p f) (c : Cell)
    (hc : c ∈ cells p.size) (B : Nat) (hB : B < f) :
    ∀ s v, PosDoms s → mes p.size s ≤ B → OkOrContra (assignF p f s c v) :=
  fun s v hp hm =>
    elimVals_progress p f hE c hc B hB ((s c).filter (fun x => x ≠ v)) s hp hm

theorem unitStep_progress (p : Puzzle) (f : Nat) (hE : ElimProg p f) (v : Int)
    (B : Nat) (hB : B < f) (u : List Cell) (hu : ∀ q ∈ u, q ∈ cells p.size) :
    ∀ s, PosDoms s → mes p.size s ≤ B → OkOrContra (unitStepF p f v s u) := by
  intro s hp hm
  unfold unitStepF
  split
  · exact Or.inr rfl
  · rename_i place heq
    have hplace : place ∈ cells p.size := by
      have : place ∈ u.filter (fun q => v ∈ s q) := by
        rw [heq]
        exact List.mem_cons_self place []
      exact hu place (List.mem_of_mem_filter this)
    exact assign_progress_of p f hE place hplace B hB s v hp hm
  · exact Or.inl ⟨s, rfl⟩

theorem unitLoop_progress (p : Puzzle) (f : Nat) (hE : ElimProg p f) (v : Int)
    (B : Nat) (hB : B < f) (us : List (List Cell))
    (hus : ∀ u ∈ us, ∀ q ∈ u, q ∈ cells p.size) :
    ∀ s, PosDoms s → mes p.size s ≤ B → OkOrContra (unitLoopF p f v us s) := by
  intro s hp hm
  exact foldE_progress (fun t => PosDoms t ∧ mes p.size t ≤ B) us
    (fun t u hu ht => by
      rcases unitStep_progress p f hE v B hB u (hus u hu) t ht.1 ht.2 with
        ⟨t', ht'⟩ | herr
      · have hpost := unitStep_post p f v ht'
        exact Or.inl ⟨t', ht', posDoms_of_post hpost ht.1,
          Nat.le_trans (mes_mono hpost.1) ht.2⟩
      · exact Or.inr herr) s ⟨hp, hm⟩

theorem ruleStep_progress (p : Puzzle) (f : Nat) (hE : ElimProg p f)
    (hg : ValidGeom p) (hcl : CleanOps p) (c : Cell) (hc : c ∈ cells p.size)
    (B : Nat) (hB : B < f) :
    ∀ s e, e ∈ ruleConstraints p.rules c → PosDoms s → mes p.size s ≤ B →
      OkOrContra (ruleStepF p f c s e) := by
  intro s e he hp hm
  unfold ruleStepF
  by_cases hpar : (e.1.op = "e" || e.1.op = "o") = true
  · rw [if_pos hpar]
    exact Or.inl ⟨s, rfl⟩
  · rw [if_neg hpar]
    simp only [Bool.or_eq_true, decide_eq_true_eq, not_or] at hpar
    obtain ⟨ar, har, hrule, _⟩ := ruleConstraints_spec he
    obtain ⟨hops, hquot⟩ := hcl ar har
    have hop4 : e.1.op = "+" ∨ e.1.op = "-" ∨ e.1.op = "*" ∨ e.1.op = "/" := by
      rw [hrule]
      rcases hops with h | h | h | h | h | h
      · exact Or.inl h
      · exact Or.inr (Or.inl h)
      · exact Or.inr (Or.inr (Or.inl h))
      · exact Or.inr (Or.inr (Or.inr h))
      · exact absurd (hrule ▸ h) hpar.1
      · exact absurd (hrule ▸ h) hpar.2
    have hquot' : e.1.op = "/" → e.1.value ≠ 0 := by
      rw [hrule]
      exact hquot
    obtain ⟨allowed, hall⟩ :=
      rule_complement_ok (m := (p.size : Int)) hop4 hquot' (s c) (hp c)
    rw [hall, bindE_okl]
    by_cases hemp : (s e.2).filter (fun w => w ∈ allowed) = []
    · rw [if_pos hemp]
      exact Or.inr rfl
    · rw [if_neg hemp]
      exact elimVals_progress p f hE e.2 (hg c hc e he) B hB _ s hp hm

theorem ruleLoop_progress (p : Puzzle) (f : Nat) (hE : ElimProg p f)
    (hg : ValidGeom p) (hcl : CleanOps p) (c : Cell) (hc : c ∈ cells p.size)
    (B : Nat) (hB : B < f) (entries : List (Rule × Cell))
    (hent : ∀ e ∈ entries, e ∈ ruleConstraints p.rules c) :
    ∀ s, PosDoms s → mes p.size s ≤ B → OkOrContra (ruleLoopF p f c entries s) := by
  intro s hp hm
  exact foldE_progress (fun t => PosDoms t ∧ mes p.size t ≤ B) entries
    (fun t e he ht => by
      rcases ruleStep_progress p f hE hg hcl c hc B hB t e (hent e he) ht.1 ht.2 with
        ⟨t', ht'⟩ | herr
      · have hpost := ruleStep_post p f c ht'
        exact Or.inl ⟨t', ht', posDoms_of_post hpost ht.1,
          Nat.le_trans (mes_mono hpost.1) ht.2⟩
      · exact Or.inr herr) s ⟨hp, hm⟩

/-- Progress of the propagator: with valid geometry and operators, positive
domains and fuel above the candidate measure, `eliminate_value` either
succeeds or raises `Contradiction` — never fuel exhaustion nor any other
exception. -/
theorem elim_progress (p : Puzzle) (hg : ValidGeom p) (hcl : CleanOps p) :
    ∀ fuel, ElimProg p fuel := by
  intro fuel
  induction fuel with
  | zero =>
    intro s c v _ _ hm
    exact absurd hm (Nat.not_lt_zero _)
  | succ f ih =>
    intro s c v hp hc hm
    rw [show OkOrContra (eliminateF p (f + 1) s c v) =
        OkOrContra (eliminateF p (f + 1) s c v) from rfl]
    unfold OkOrContra
    rw [eliminateF_succ]
    by_cases hv : v ∈ s c
    · rw [if_pos hv]
      by_cases hlen : ((s c).filter (fun w => w ≠ v)).length = 0
      · rw [if_pos hlen]
        exact Or.inr rfl
      · rw [if_neg hlen]
        have hne : (s c).filter (fun w => w ≠ v) ≠ [] := by
          intro hemp
          exact hlen (by rw [hemp]; rfl)
        have hpost1 := setp_filter_postOK (s := s) (c := c) (v := v) hne
        have hp1 : PosDoms (setp s c ((s c).filter (fun w => w ≠ v))) :=
          posDoms_of_post hpost1 hp
        have hm1 : mes p.size (setp s c ((s c).filter (fun w => w ≠ v))) < f := by
          have hlt := mes_removal_lt (s := s) hc hv
          omega
        set B := mes p.size (setp s c ((s c).filter (fun w => w ≠ v))) with hBdef
        have hstage1 : OkOrContra
            (if ((s c).filter (fun w => w ≠ v)).length = 1 then
              elimPeersF p f (peersOf p.size c)
                (((s c).filter (fun w => w ≠ v)).headD 0)
                (setp s c ((s c).filter (fun w => w ≠ v)))
            else pure (setp s c ((s c).filter (fun w => w ≠ v)))) := by
          by_cases h1 : ((s c).filter (fun w => w ≠ v)).length = 1
          · rw [if_pos h1]
            exact elimCells_progress p f ih _ (peersOf p.size c)
              (fun x hx => peersOf_mem_cells hx) B hm1 _ hp1 (Nat.le_refl _)
          · rw [if_neg h1]
            exact Or.inl ⟨_, rfl⟩
        rcases hstage1 with ⟨s2, h2⟩ | herr2
        · rw [h2, bindE_okl]
          have hpost2 : PostOK (setp s c ((s c).filter (fun w => w ≠ v))) s2 := by
            by_cases h1 : ((s c).filter (fun w => w ≠ v)).length = 1
            · rw [if_pos h1] at h2
              exact elimPeers_post p f _ _ h2
            · rw [if_neg h1] at h2
              cases h2
              exact postOK_refl _
          have hp2 : PosDoms s2 := posDoms_of_post hpost2 hp1
          have hm2 : mes p.size s2 ≤ B := mes_mono hpost2.1
          rcases unitLoop_progress p f ih v B hm1 (unitsMap p.size c)
              (fun u hu q hq => unitsMap_mem_cells hu hq) s2 hp2 hm2 with
            ⟨s3, h3⟩ | herr3
          · rw [h3, bindE_okl]
            have hpost3 := unitLoop_post p f v _ h3
            have hp3 : PosDoms s3 := posDoms_of_post hpost3 hp2
            have hm3 : mes p.size s3 ≤ B := Nat.le_trans (mes_mono hpost3.1) hm2
            exact ruleLoop_progress p f ih hg hcl c hc B hm1
              (ruleConstraints p.rules c) (fun e he => he) s3 hp3 hm3
          · rw [herr3, bindE_errl]
            exact Or.inr rfl
        · rw [herr2, bindE_errl]
          exact Or.inr rfl
    · rw [if_neg hv]
      exact Or.inl ⟨s, rfl⟩

theorem assign_progress (p : Puzzle) (hg : ValidGeom p) (hcl : CleanOps p)
    (fuel : Nat) (s : Poss) (c : Cell) (v : Int) (hp : PosDoms s)
    (hc : c ∈ cells p.size) (hm : mes p.size s < fuel) :
    OkOrContra (assignF p fuel s c v) :=
  assign_progress_of p fuel (elim_progress p hg hcl fuel) c hc (mes p.size s)
    hm s v hp (Nat.le_refl _)


/-!
Search lemmas: the returned mapping is the extraction of a resolved domain
state lying inside the input state, and the search never exhausts its fuel
once the fuel exceeds the candidate measure.
-/

theorem exbind_okl {α β : Type} (a : α) (f : α → Except PErr β) :
    (Except.ok a : Except PErr α).bind f = f a := rfl

theorem exbind_errl {α β : Type} (e : PErr) (f : α → Except PErr β) :
    (Except.error e : Except PErr α).bind f = Except.error e := rfl

/-- Unfolding of `searchF` at positive fuel; holds by definition. -/
theorem searchF_succ (p : Puzzle) (f : Nat) (s : Poss) :
    searchF p (f + 1) s =
      if (cells p.size).all (fun c => (s c).length = 1) then
        pure (extractSol p.size s)
      else
        match (cells p.size).filter (fun c => 1 < (s c).length) with
        | [] => Except.error PErr.minEmpty
        | c0 :: rest =>
          tryBranches
            (fun v => (assignF p f s (argminLen s c0 rest) v).bind
              (fun s' => searchF p f s'))
            (s (argminLen s c0 rest)) := rfl

theorem argminLen_mem (s : Poss) :
    ∀ (rest : List Cell) (best : Cell), argminLen s best rest ∈ best :: rest := by
  intro rest
  induction rest with
  | nil =>
    intro best
    simp [argminLen]
  | cons c t ih =>
    intro best
    unfold argminLen
    by_cases hlt : (s c).length < (s best).length
    · rw [if_pos hlt]
      rcases List.mem_cons.mp (ih c) with h | h
      · rw [h]
        exact List.mem_cons_of_mem best (List.mem_cons_self c t)
      · exact List.mem_cons_of_mem best (List.mem_cons_of_mem c h)
    · rw [if_neg hlt]
      rcases List.mem_cons.mp (ih best) with h | h
      · rw [h]
        exact List.mem_cons_self best (c :: t)
      · exact List.mem_cons_of_mem best (List.mem_cons_of_mem c h)

theorem search_sol (p : Puzzle) :
    ∀ fuel s m, searchF p fuel s = Except.ok m →
      ∃ t : Poss, (∀ x, (t x).Sublist (s x)) ∧
        (∀ c ∈ cells p.size, (t c).length = 1) ∧ m = extractSol p.size t := by
  intro fuel
  induction fuel with
  | zero =>
    intro s m h
    exact Except.noConfusion h
  | succ f ih =>
    intro s m h
    rw [searchF_succ] at h
    by_cases hall : (cells p.size).all (fun c => (s c).length = 1)
    · rw [if_pos hall] at h
      cases h
      refine ⟨s, fun x => List.Sublist.refl _, ?_, rfl⟩
      intro c hc
      have := List.all_eq_true.mp hall c hc
      simpa using this
    · rw [if_neg hall] at h
      revert h
      split
      · intro h
        exact Except.noConfusion h
      · rename_i c0 rest hfil
        intro h
        obtain ⟨v, _, hbranch⟩ := tryBranches_ok _ m h
        cases hassign : assignF p f s (argminLen s c0 rest) v with
        | error e =>
          rw [hassign, exbind_errl] at hbranch
          exact Except.noConfusion hbranch
        | ok s' =>
          rw [hassign, exbind_okl] at hbranch
          obtain ⟨t, hsub, hlen1, hm⟩ := ih s' m hbranch
          exact ⟨t, fun x => (hsub x).trans ((assign_post p f hassign).1 x),
            hlen1, hm⟩

theorem length_le_one_of_all_eq {l : List Int} {v : Int} (hn : l.Nodup)
    (ha : ∀ x ∈ l, x = v) : l.length ≤ 1 := by
  match l, hn, ha with
  | [], _, _ => simp
  | [a], _, _ => simp
  | a :: b :: t, hn, ha =>
    exfalso
    have hab : a ≠ b := by
      have := List.nodup_cons.mp hn
      exact fun he => this.1 (he ▸ List.mem_cons_self b t)
    exact hab ((ha a (by simp)).trans (ha b (by simp)).symm)

theorem search_no_fuelOut (p : Puzzle) (hg : ValidGeom p) (hcl : CleanOps p) :
    ∀ fuel s, PosDoms s → NodupDoms s → mes p.size s + 1 < fuel →
      searchF p fuel s ≠ Except.error PErr.fuelOut := by
  intro fuel
  induction fuel with
  | zero =>
    intro s _ _ hm
    omega
  | succ f ih =>
    intro s hp hn hm
    rw [searchF_succ]
    by_cases hall : (cells p.size).all (fun c => (s c).length = 1)
    · rw [if_pos hall]
      intro h
      exact Except.noConfusion h
    · rw [if_neg hall]
      split
      · intro h
        exact PErr.noConfusion (Except.error.inj h)
      · rename_i c0 rest hfil
        apply tryBranches_ne_fuelOut
        intro v _
        have hmin_mem : argminLen s c0 rest ∈
            (cells p.size).filter (fun c => 1 < (s c).length) := by
          rw [hfil]
          exact argminLen_mem s rest c0
        have hmin_cells : argminLen s c0 rest ∈ cells p.size :=
          List.mem_of_mem_filter hmin_mem
        have hmin_len : 1 < (s (argminLen s c0 rest)).length := by
          have := List.of_mem_filter hmin_mem
          simpa using this
        rcases assign_progress p hg hcl f s (argminLen s c0 rest) v hp hmin_cells
            (by omega) with ⟨s', hok⟩ | herr
        · rw [hok, exbind_okl]
          have hpost := assign_post p f hok
          have hs'len : (s' (argminLen s c0 rest)).length ≤ 1 :=
            length_le_one_of_all_eq
              (nodupDoms_of_post hpost hn (argminLen s c0 rest))
              (assign_subset p f hok)
          have hmes : mes p.size s' < mes p.size s := by
            refine sum_map_lt _ _ _ (fun x _ => (hpost.1 x).length_le)
              (argminLen s c0 rest) hmin_cells ?_
            omega
          exact ih s' (posDoms_of_post hpost hp) (nodupDoms_of_post hpost hn)
            (by omega)
        · rw [herr, exbind_errl]
          intro h
          exact PErr.noConfusion (Except.error.inj h)


/-!
Seeding lemmas: the seeding pass only filters domains (so the seeded state
sits inside the initial `1..size` domains), and its only possible exceptions
are `KeyError`, the unknown-operator `ValueError` and `ZeroDivisionError` —
never `Contradiction` (it consumes no fuel either).
-/

theorem shrinks_refl (s : Poss) : Shrinks s s := fun _ => List.Sublist.refl _

theorem shrinks_trans {s t u : Poss} (h1 : Shrinks s t) (h2 : Shrinks t u) :
    Shrinks s u := fun x => (h2 x).trans (h1 x)

theorem setp_filter_shrinks (s : Poss) (idx : Cell) (q : Int → Bool) :
    Shrinks s (setp s idx ((s idx).filter q)) := by
  intro x
  by_cases hx : x = idx
  · subst hx
    rw [setp_self]
    exact List.filter_sublist _
  · rw [setp_other _ _ _ _ hx]

theorem lookupGrid_ok {n : Nat} {s : Poss} {c : Cell} {d : List Int}
    (h : lookupGrid n s c = Except.ok d) : d = s c ∧ c ∈ cells n := by
  unfold lookupGrid at h
  split at h
  · cases h
    exact ⟨rfl, by assumption⟩
  · exact Except.noConfusion h

theorem lookupGrid_err {n : Nat} {s : Poss} {c : Cell} {e : PErr}
    (h : lookupGrid n s c = Except.error e) : e = PErr.keyError := by
  unfold lookupGrid at h
  split at h
  · exact Except.noConfusion h
  · exact (Except.error.inj h).symm

theorem seedEntry_sub {p : Puzzle} {s : Poss} {idx : Cell} {e : Rule × Cell}
    {s' : Poss} (h : seedEntry p s idx e = Except.ok s') : Shrinks s s' := by
  unfold seedEntry at h
  split_ifs at h
  · obtain ⟨d, hd, hpure⟩ := bindE_ok h
    cases hpure
    rw [(lookupGrid_ok hd).1]
    exact setp_filter_shrinks s idx _
  · obtain ⟨d, hd, hpure⟩ := bindE_ok h
    cases hpure
    rw [(lookupGrid_ok hd).1]
    exact setp_filter_shrinks s idx _
  · obtain ⟨pd, _, h2⟩ := bindE_ok h
    obtain ⟨allowed, _, h3⟩ := bindE_ok h2
    obtain ⟨od, hod, hpure⟩ := bindE_ok h3
    cases hpure
    rw [(lookupGrid_ok hod).1]
    exact setp_filter_shrinks s idx _

theorem bindE_err {α β : Type} {x : Except PErr α} {f : α → Except PErr β}
    {e : PErr} (h : x >>= f = Except.error e) :
    x = Except.error e ∨ ∃ a, x = Except.ok a ∧ f a = Except.error e := by
  cases x with
  | ok a => exact Or.inr ⟨a, rfl, h⟩
  | error e' =>
    left
    rw [show (Except.error e' : Except PErr α) >>= f = Except.error e' from rfl] at h
    rw [Except.error.inj h]

theorem rule_inverse_err {r : Rule} {v m : Int} {e : PErr}
    (h : rule_inverse r v m = Except.error e) :
    e = PErr.zeroDiv ∨ e = PErr.unhandledOp := by
  unfold rule_inverse at h
  rcases bindE_err h with herr | ⟨a, _, hpure⟩
  · split_ifs at herr
    · exact Except.noConfusion herr
    · exact Except.noConfusion herr
    · exact Or.inl (Except.error.inj herr).symm
    · exact Except.noConfusion herr
    · exact Or.inl (Except.error.inj herr).symm
    · exact Except.noConfusion herr
    · exact Or.inr (Except.error.inj herr).symm
  · exact Except.noConfusion hpure

theorem rule_complement_err {r : Rule} {m : Int} :
    ∀ (vals : List Int) (e : PErr), rule_complement r vals m = Except.error e →
      e = PErr.zeroDiv ∨ e = PErr.unhandledOp := by
  intro vals
  induction vals with
  | nil =>
    intro e h
    exact Except.noConfusion h
  | cons a t ih =>
    intro e h
    rw [show rule_complement r (a :: t) m =
        (rule_inverse r a m) >>= (fun inv =>
          (rule_complement r t m) >>= fun tailU => pure (inv ++ tailU)) from rfl] at h
    rcases bindE_err h with herr | ⟨inv, _, h2⟩
    · exact rule_inverse_err herr
    · rcases bindE_err h2 with herr | ⟨tailU, _, hpure⟩
      · exact ih e herr
      · exact Except.noConfusion hpure

theorem seedEntry_err {p : Puzzle} {s : Poss} {idx : Cell} {e : Rule × Cell}
    {er : PErr} (h : seedEntry p s idx e = Except.error er) :
    er = PErr.keyError ∨ er = PErr.zeroDiv ∨ er = PErr.unhandledOp := by
  unfold seedEntry at h
  split_ifs at h
  · rcases bindE_err h with herr | ⟨d, _, hpure⟩
    · exact Or.inl (lookupGrid_err herr)
    · exact Except.noConfusion hpure
  · rcases bindE_err h with herr | ⟨d, _, hpure⟩
    · exact Or.inl (lookupGrid_err herr)
    · exact Except.noConfusion hpure
  · rcases bindE_err h with herr | ⟨pd, _, h2⟩
    · exact Or.inl (lookupGrid_err herr)
    · rcases bindE_err h2 with herr | ⟨allowed, _, h3⟩
      · exact Or.inr (rule_complement_err _ _ herr)
      · rcases bindE_err h3 with herr | ⟨od, _, hpure⟩
        · exact Or.inl (lookupGrid_err herr)
        · exact Except.noConfusion hpure

theorem foldE_err {α : Type} {f : Poss → α → Except PErr Poss} (E : PErr → Prop)
    (l : List α) (hf : ∀ s x, x ∈ l → ∀ e, f s x = Except.error e → E e) :
    ∀ s e, foldE f l s = Except.error e → E e := by
  induction l with
  | nil =>
    intro s e h
    exact Except.noConfusion h
  | cons a t ih =>
    intro s e h
    rw [foldE_cons] at h
    rcases bindE_err h with herr | ⟨s1, _, hrest⟩
    · exact hf s a (List.mem_cons_self a t) e herr
    · exact ih (fun s x hx => hf s x (List.mem_cons_of_mem a hx)) s1 e hrest

theorem seedKey_err {p : Puzzle} {s : Poss} {idx : Cell} {e : PErr}
    (h : seedKey p s idx = Except.error e) :
    e = PErr.keyError ∨ e = PErr.zeroDiv ∨ e = PErr.unhandledOp :=
  foldE_err _ (ruleConstraints p.rules idx)
    (fun s x _ e hx => seedEntry_err hx) s e h

theorem seed_err {p : Puzzle} {e : PErr} (h : seed p = Except.error e) :
    e = PErr.keyError ∨ e = PErr.zeroDiv ∨ e = PErr.unhandledOp :=
  foldE_err _ (ruleKeys p.rules)
    (fun s x _ e hx => seedKey_err hx) (initPoss p.size) e h

theorem seedKey_sub {p : Puzzle} {s : Poss} {idx : Cell} {s' : Poss}
    (h : seedKey p s idx = Except.ok s') : Shrinks s s' :=
  foldE_post shrinks_refl shrinks_trans (ruleConstraints p.rules idx)
    (fun s x _ s' hx => seedEntry_sub hx) s s' h

theorem seed_sub {p : Puzzle} {s0 : Poss} (h : seed p = Except.ok s0) :
    Shrinks (initPoss p.size) s0 :=
  foldE_post shrinks_refl shrinks_trans (ruleKeys p.rules)
    (fun s x _ s' hx => seedKey_sub hx) (initPoss p.size) s0 h

theorem mem_init {n : Nat} {c : Cell} {w : Int} :
    w ∈ initPoss n c ↔ c ∈ cells n ∧ 1 ≤ w ∧ w ≤ (n : Int) := by
  unfold initPoss
  by_cases hc : c ∈ cells n
  · rw [if_pos hc]
    rw [List.mem_map]
    constructor
    · rintro ⟨k, hk, rfl⟩
      rw [List.mem_range] at hk
      exact ⟨hc, by omega, by omega⟩
    · intro ⟨_, h1, h2⟩
      refine ⟨(w - 1).toNat, ?_, ?_⟩
      · rw [List.mem_range]
        omega
      · omega
  · rw [if_neg hc]
    simp [hc]

theorem init_pos (n : Nat) : PosDoms (initPoss n) := by
  intro x w hw
  have := (mem_init.mp hw).2.1
  omega

theorem init_nodup (n : Nat) : NodupDoms (initPoss n) := by
  intro x
  unfold initPoss
  by_cases hx : x ∈ cells n
  · rw [if_pos hx]
    have hinj : Function.Injective (fun k : Nat => (k : Int) + 1) := by
      intro a b hab
      simp only at hab
      omega
    exact List.Nodup.map hinj (List.nodup_range n)
  · rw [if_neg hx]
    exact List.nodup_nil

theorem posDoms_of_shrinks {s s' : Poss} (h : Shrinks s s') (hp : PosDoms s) :
    PosDoms s' := fun x w hw => hp x w ((h x).subset hw)

theorem nodupDoms_of_shrinks {s s' : Poss} (h : Shrinks s s') (hn : NodupDoms s) :
    NodupDoms s' := fun x => (hn x).sublist (h x)

/-!
Lemmas about the application of the givens.
-/

theorem givenStep_post {p : Puzzle} {fuel : Nat} {s : Poss} {iv : Cell × Int}
    {s' : Poss} (h : givenStep p fuel s iv = Except.ok s') : PostOK s s' := by
  unfold givenStep at h
  split at h
  · exact assign_post p fuel h
  · exact Except.noConfusion h

theorem gfold_post (p : Puzzle) (fuel : Nat) (l : List (Cell × Int)) :
    ∀ s s', foldE (givenStep p fuel) l s = Except.ok s' → PostOK s s' :=
  foldE_post postOK_refl postOK_trans l (fun s x _ s' hx => givenStep_post hx)

theorem gfold_keeps (p : Puzzle) (fuel : Nat) :
    ∀ (l : List (Cell × Int)) (s s' : Poss),
      foldE (givenStep p fuel) l s = Except.ok s' →
      ∀ iv ∈ l, ∀ x ∈ s' iv.1, x = iv.2 := by
  intro l
  induction l with
  | nil =>
    intro s s' _ iv hiv
    cases hiv
  | cons a t ih =>
    intro s s' h iv hiv
    rw [foldE_cons] at h
    obtain ⟨s1, h1, hrest⟩ := bindE_ok h
    rcases List.mem_cons.mp hiv with rfl | hivt
    · unfold givenStep at h1
      split at h1
      · intro x hx
        exact assign_subset p fuel h1 x (((gfold_post p fuel t s1 s' hrest).1 iv.1).subset hx)
      · exact Except.noConfusion h1
    · exact ih s1 s' hrest iv hivt

theorem gfold_keys (p : Puzzle) (fuel : Nat) (l : List (Cell × Int))
    {s s' : Poss} (h : foldE (givenStep p fuel) l s = Except.ok s') :
    ∀ iv ∈ l, iv.1 ∈ cells p.size := by
  intro iv hiv
  obtain ⟨t, t', ht⟩ := foldE_ok_each l s s' h iv hiv
  unfold givenStep at ht
  by_cases hc : iv.1 ∈ cells p.size
  · exact hc
  · rw [if_neg hc] at ht
    exact Except.noConfusion ht

/-- Decomposition of a successful solve into its three stages. -/
theorem solveF_ok_parts {p : Puzzle} {fuel : Nat} {m : List (Cell × Int)}
    (h : solveF p fuel = Except.ok m) :
    ∃ s0 s1, seed p = Except.ok s0 ∧ applyGivensF p fuel s0 = Except.ok s1 ∧
      searchF p fuel s1 = Except.ok m := by
  unfold solveF at h
  obtain ⟨s0, hs0, h1⟩ := bindE_ok h
  obtain ⟨s1, hs1, h2⟩ := bindE_ok h1
  refine ⟨s0, s1, hs0, hs1, ?_⟩
  revert h2
  cases hsr : searchF p fuel s1 with
  | ok mm =>
    intro h2
    have h3 := Except.ok.inj h2
    rw [h3]
  | error e =>
    intro h2
    exfalso
    cases e <;> exact Except.noConfusion h2


/-!
Assigning a value absent from a nonempty domain always raises
`Contradiction`: the removal loop eliminates every candidate, and the
elimination that empties the domain raises.
-/

theorem assign_absent_contra (p : Puzzle) (hg : ValidGeom p) (hcl : CleanOps p)
    (fuel : Nat) {s : Poss} {c : Cell} {v : Int} (hp : PosDoms s)
    (hc : c ∈ cells p.size) (hm : mes p.size s < fuel) (hne : s c ≠ [])
    (hv : v ∉ s c) : assignF p fuel s c v = Except.error PErr.contradiction := by
  rcases assign_progress p hg hcl fuel s c v hp hc hm with ⟨s', hok⟩ | herr
  · exfalso
    have hne' := (assign_post p fuel hok).2 c hne
    cases hs' : s' c with
    | nil => exact hne' hs'
    | cons a t =>
      have hmem : a ∈ s' c := by
        rw [hs']
        exact List.mem_cons_self a t
      have ha : a = v := assign_subset p fuel hok a hmem
      have has : a ∈ s c := ((assign_post p fuel hok).1 c).subset hmem
      rw [ha] at has
      exact hv has
  · exact herr

/-!
Seeding with an out-of-range anchor: the entry of the rule table whose key or
partner falls off the grid makes its dict lookup fail, so the seeding pass
stops with `KeyError` — before the givens are applied and before any search.
-/

theorem seedEntry_bad_binary (p : Puzzle) {idx : Cell} {e : Rule × Cell}
    (hop1 : ¬e.1.op = "e") (hop2 : ¬e.1.op = "o") (hpart : e.2 ∉ cells p.size) :
    ∀ s, seedEntry p s idx e = Except.error PErr.keyError := by
  intro s
  unfold seedEntry
  rw [if_neg hop1, if_neg hop2]
  rw [show lookupGrid p.size s e.2 = Except.error PErr.keyError from by
    unfold lookupGrid
    rw [if_neg hpart]]
  rfl

theorem seedEntry_bad_parity (p : Puzzle) {idx : Cell} {e : Rule × Cell}
    (hpar : e.1.op = "e" ∨ e.1.op = "o") (hidx : idx ∉ cells p.size) :
    ∀ s, seedEntry p s idx e = Except.error PErr.keyError := by
  intro s
  unfold seedEntry
  have hlk : lookupGrid p.size s idx = Except.error PErr.keyError := by
    unfold lookupGrid
    rw [if_neg hidx]
  rcases hpar with h | h
  · rw [if_pos h, hlk]
    rfl
  · rw [if_neg (by simp [h]), if_pos h, hlk]
    rfl

theorem seedEntry_cases (p : Puzzle) (hcl : CleanOps p) {idx : Cell}
    {e : Rule × Cell} (he : e ∈ ruleConstraints p.rules idx) :
    ∀ s, PosDoms s →
      (∃ s', seedEntry p s idx e = Except.ok s' ∧ PosDoms s') ∨
        seedEntry p s idx e = Except.error PErr.keyError := by
  intro s hp
  rcases hres : seedEntry p s idx e with er | s'
  case ok =>
    exact Or.inl ⟨s', rfl, posDoms_of_shrinks (seedEntry_sub hres) hp⟩
  case error =>
    right
    rcases seedEntry_err hres with h | h | h
    · rw [h]
    · exfalso
      -- a zero division is impossible: the operator set is clean and the
      -- partner's domain is positive
      unfold seedEntry at hres
      obtain ⟨ar, har, hrule, _⟩ := ruleConstraints_spec he
      obtain ⟨hops, hquot⟩ := hcl ar har
      split_ifs at hres with h1 h2
      · rcases bindE_err hres with herr | ⟨d, _, hpure⟩
        · rw [lookupGrid_err herr] at h
          exact PErr.noConfusion h
        · exact Except.noConfusion hpure
      · rcases bindE_err hres with herr | ⟨d, _, hpure⟩
        · rw [lookupGrid_err herr] at h
          exact PErr.noConfusion h
        · exact Except.noConfusion hpure
      · rcases bindE_err hres with herr | ⟨pd, hpd, h3⟩
        · rw [lookupGrid_err herr] at h
          exact PErr.noConfusion h
        · have hop4 : e.1.op = "+" ∨ e.1.op = "-" ∨ e.1.op = "*" ∨ e.1.op = "/" := by
            rw [hrule]
            rcases hops with hh | hh | hh | hh | hh | hh
            · exact Or.inl hh
            · exact Or.inr (Or.inl hh)
            · exact Or.inr (Or.inr (Or.inl hh))
            · exact Or.inr (Or.inr (Or.inr hh))
            · exact absurd (hrule ▸ hh) h1
            · exact absurd (hrule ▸ hh) h2
          have hquot' : e.1.op = "/" → e.1.value ≠ 0 := by
            rw [hrule]
            exact hquot
          obtain ⟨hpdv, _⟩ := lookupGrid_ok hpd
          obtain ⟨out, hout⟩ := rule_complement_ok (m := (p.size : Int)) hop4
            hquot' pd (by rw [hpdv]; exact hp e.2)
          rcases bindE_err h3 with herr | ⟨allowed, hall, h4⟩
          · rw [hout] at herr
            exact Except.noConfusion herr
          · rcases bindE_err h4 with herr | ⟨od, _, hpure⟩
            · rw [lookupGrid_err herr] at h
              exact PErr.noConfusion h
            · exact Except.noConfusion hpure
    · exfalso
      -- an unknown operator is impossible under CleanOps, by the same case
      -- analysis: the only source of `unhandledOp` is `rule_complement`
      unfold seedEntry at hres
      obtain ⟨ar, har, hrule, _⟩ := ruleConstraints_spec he
      obtain ⟨hops, hquot⟩ := hcl ar har
      split_ifs at hres with h1 h2
      · rcases bindE_err hres with herr | ⟨d, _, hpure⟩
        · rw [lookupGrid_err herr] at h
          exact PErr.noConfusion h
        · exact Except.noConfusion hpure
      · rcases bindE_err hres with herr | ⟨d, _, hpure⟩
        · rw [lookupGrid_err herr] at h
          exact PErr.noConfusion h
        · exact Except.noConfusion hpure
      · rcases bindE_err hres with herr | ⟨pd, hpd, h3⟩
        · rw [lookupGrid_err herr] at h
          exact PErr.noConfusion h
        · have hop4 : e.1.op = "+" ∨ e.1.op = "-" ∨ e.1.op = "*" ∨ e.1.op = "/" := by
            rw [hrule]
            rcases hops with hh | hh | hh | hh | hh | hh
            · exact Or.inl hh
            · exact Or.inr (Or.inl hh)
            · exact Or.inr (Or.inr (Or.inl hh))
            · exact Or.inr (Or.inr (Or.inr hh))
            · exact absurd (hrule ▸ hh) h1
            · exact absurd (hrule ▸ hh) h2
          have hquot' : e.1.op = "/" → e.1.value ≠ 0 := by
            rw [hrule]
            exact hquot
          obtain ⟨hpdv, _⟩ := lookupGrid_ok hpd
          obtain ⟨out, hout⟩ := rule_complement_ok (m := (p.size : Int)) hop4
            hquot' pd (by rw [hpdv]; exact hp e.2)
          rcases bindE_err h3 with herr | ⟨allowed, hall, h4⟩
          · rw [hout] at herr
            exact Except.noConfusion herr
          · rcases bindE_err h4 with herr | ⟨od, _, hpure⟩
            · rw [lookupGrid_err herr] at h
              exact PErr.noConfusion h
            · exact Except.noConfusion hpure

theorem mem_dedupFirst {x : Cell} :
    ∀ (seen l : List Cell), x ∈ l → x ∉ seen → x ∈ dedupFirst seen l := by
  intro seen l
  induction l generalizing seen with
  | nil =>
    intro hx
    cases hx
  | cons a t ih =>
    intro hx hseen
    unfold dedupFirst
    by_cases ha : a ∈ seen
    · rw [if_pos ha]
      rcases List.mem_cons.mp hx with rfl | hxt
      · exact absurd ha hseen
      · exact ih seen hxt hseen
    · rw [if_neg ha]
      by_cases hxa : x = a
      · rw [hxa]
        exact List.mem_cons_self a _
      · rcases List.mem_cons.mp hx with rfl | hxt
        · exact absurd rfl hxa
        · refine List.mem_cons_of_mem a (ih (a :: seen) hxt ?_)
          intro hmem
          rcases List.mem_cons.mp hmem with h | h
          · exact hxa h
          · exact hseen h

theorem mem_ruleKeys {rules : List (Cell × Rule)} {ar : Cell × Rule}
    (har : ar ∈ rules) {k : Cell} (hk : k ∈ blockCells ar.1) :
    k ∈ ruleKeys rules := by
  apply mem_dedupFirst
  · exact List.mem_flatMap.mpr ⟨ar, har, hk⟩
  · intro h
    cases h


theorem foldE_casesE {α : Type} {f : Poss → α → Except PErr Poss}
    {Inv : Poss → Prop} {e₀ : PErr} (l : List α)
    (hf : ∀ s x, x ∈ l → Inv s →
      (∃ s', f s x = Except.ok s' ∧ Inv s') ∨ f s x = Except.error e₀) :
    ∀ s, Inv s → (∃ s', foldE f l s = Except.ok s' ∧ Inv s') ∨
      foldE f l s = Except.error e₀ := by
  induction l with
  | nil =>
    intro s hs
    exact Or.inl ⟨s, rfl, hs⟩
  | cons a t ih =>
    intro s hs
    rcases hf s a (List.mem_cons_self a t) hs with ⟨s1, h1, hinv1⟩ | herr
    · rw [foldE_cons, h1, bindE_okl]
      exact ih (fun s x hx => hf s x (List.mem_cons_of_mem a hx)) s1 hinv1
    · rw [foldE_cons, herr, bindE_errl]
      exact Or.inr rfl

theorem seedKey_cases (p : Puzzle) (hcl : CleanOps p) (idx : Cell) :
    ∀ s, PosDoms s →
      (∃ s', seedKey p s idx = Except.ok s' ∧ PosDoms s') ∨
        seedKey p s idx = Except.error PErr.keyError :=
  foldE_casesE (ruleConstraints p.rules idx)
    (fun t x hx ht => seedEntry_cases p hcl hx t ht)

theorem seed_forced_of_badkey (p : Puzzle) (hcl : CleanOps p) {k : Cell}
    (hk : k ∈ ruleKeys p.rules) {e : Rule × Cell}
    (he : e ∈ ruleConstraints p.rules k)
    (hbad : ∀ s, seedEntry p s k e = Except.error PErr.keyError) :
    seed p = Except.error PErr.keyError := by
  have hkey_bad : ∀ s, PosDoms s → seedKey p s k = Except.error PErr.keyError :=
    fun s hp =>
      foldE_forces PosDoms (ruleConstraints p.rules k)
        (fun t x hx ht => seedEntry_cases p hcl hx t ht) e he
        (fun t _ => hbad t) s hp
  exact foldE_forces PosDoms (ruleKeys p.rules)
    (fun t x _ ht => seedKey_cases p hcl x t ht) k hk
    (fun t ht => hkey_bad t ht) (initPoss p.size) (init_pos p.size)

/-- An anchor whose 2×2 block leaves the grid forces the seeding pass to die
with `KeyError`, whatever the rule's operator. -/
theorem seed_bad_anchor (p : Puzzle) (hcl : CleanOps p) {ar : Cell × Rule}
    (har : ar ∈ p.rules)
    (hout : p.size ≤ ar.1.1 + 1 ∨ p.size ≤ ar.1.2 + 1) :
    seed p = Except.error PErr.keyError := by
  obtain ⟨hops, _⟩ := hcl ar har
  by_cases hpar : ar.2.op = "e" ∨ ar.2.op = "o"
  · rcases hout with hx | hy
    · -- the key (x+1, y) is off the grid
      have hk : (ar.1.1 + 1, ar.1.2) ∈ ruleKeys p.rules :=
        mem_ruleKeys har (by
          unfold blockCells
          exact List.mem_cons_of_mem _ (List.mem_cons_self _ _))
      have he : (ar.2, (ar.1.1, ar.1.2 + 1)) ∈
          ruleConstraints p.rules (ar.1.1 + 1, ar.1.2) := by
        apply List.mem_filterMap.mpr
        refine ⟨ar, har, ?_⟩
        rw [if_neg (by simp only [Prod.mk.injEq]; omega), if_pos rfl]
      have hidx : (ar.1.1 + 1, ar.1.2) ∉ cells p.size := by
        intro hmem
        have := mem_cells.mp hmem
        omega
      exact seed_forced_of_badkey p hcl hk he
        (seedEntry_bad_parity p hpar hidx)
    · -- the key (x, y+1) is off the grid
      have hk : (ar.1.1, ar.1.2 + 1) ∈ ruleKeys p.rules :=
        mem_ruleKeys har (by
          unfold blockCells
          exact List.mem_cons_of_mem _
            (List.mem_cons_of_mem _ (List.mem_cons_self _ _)))
      have he : (ar.2, (ar.1.1 + 1, ar.1.2)) ∈
          ruleConstraints p.rules (ar.1.1, ar.1.2 + 1) := by
        apply List.mem_filterMap.mpr
        refine ⟨ar, har, ?_⟩
        rw [if_neg (by simp only [Prod.mk.injEq]; omega),
          if_neg (by simp only [Prod.mk.injEq]; omega), if_pos rfl]
      have hidx : (ar.1.1, ar.1.2 + 1) ∉ cells p.size := by
        intro hmem
        have := mem_cells.mp hmem
        omega
      exact seed_forced_of_badkey p hcl hk he
        (seedEntry_bad_parity p hpar hidx)
  · -- binary rule: the anchor's own entry has its partner off the grid
    have hk : (ar.1.1, ar.1.2) ∈ ruleKeys p.rules :=
      mem_ruleKeys har (by
        unfold blockCells
        exact List.mem_cons_self _ _)
    have he : (ar.2, (ar.1.1 + 1, ar.1.2 + 1)) ∈
        ruleConstraints p.rules (ar.1.1, ar.1.2) := by
      apply List.mem_filterMap.mpr
      refine ⟨ar, har, ?_⟩
      rw [if_pos rfl]
    have hpart : (ar.1.1 + 1, ar.1.2 + 1) ∉ cells p.size := by
      intro hmem
      have := mem_cells.mp hmem
      omega
    simp only [not_or] at hpar
    exact seed_forced_of_badkey p hcl hk he
      (seedEntry_bad_binary p hpar.1 hpar.2 hpart)


/-!
The frame property of the store-level propagator: every write targets the
address the function was given, so every other dict in the heap is untouched
— in particular the parent's domain state and every earlier branch's copy
survive a failed branch unchanged.
-/

theorem readH_writeH_ne (h : Heap) (a a' : Nat) (hne : a' ≠ a) (c : Cell)
    (d : List Int) : readH (writeH h a c d) a' = readH h a' := by
  unfold readH writeH
  rw [List.getD_eq_getElem?_getD, List.getD_eq_getElem?_getD,
    List.getElem?_set_ne (fun he => hne he.symm)]

theorem foldH_cons {α : Type} (f : Heap → α → Heap × Option PErr) (x : α)
    (t : List α) (h : Heap) :
    foldH f (x :: t) h =
      match f h x with
      | (h', none) => foldH f t h'
      | (h', some e) => (h', some e) := rfl

theorem foldH_frame {α : Type} (f : Heap → α → Heap × Option PErr) (a' : Nat)
    (hf : ∀ h x, readH (f h x).1 a' = readH h a') :
    ∀ (l : List α) (h : Heap), readH (foldH f l h).1 a' = readH h a' := by
  intro l
  induction l with
  | nil => intro h; rfl
  | cons x t ih =>
    intro h
    rw [foldH_cons]
    rcases hstep : f h x with ⟨h1, r⟩
    have hh1 : readH h1 a' = readH h a' := by
      have := hf h x
      rw [hstep] at this
      exact this
    cases r with
    | none =>
      rw [ih h1]
      exact hh1
    | some e =>
      exact hh1

theorem peersStageH_frame (p : Puzzle)
    (elim : Heap → Cell → Int → Heap × Option PErr) (a' : Nat)
    (helim : ∀ hh c' w, readH (elim hh c' w).1 a' = readH hh a') (c : Cell)
    (d1 : List Int) (h1 : Heap) :
    readH (peersStageH p elim c d1 h1).1 a' = readH h1 a' := by
  unfold peersStageH
  split
  · exact foldH_frame _ a' (fun hh x => helim hh x _) (peersOf p.size c) h1
  · rfl

theorem unitStepH_frame (elim : Heap → Cell → Int → Heap × Option PErr)
    (a : Nat) (v : Int) (a' : Nat)
    (helim : ∀ hh c' w, readH (elim hh c' w).1 a' = readH hh a') (h : Heap)
    (u : List Cell) : readH (unitStepH elim a v h u).1 a' = readH h a' := by
  unfold unitStepH
  split
  · rfl
  · exact foldH_frame _ a' (fun hh x => helim hh _ x) _ h
  · rfl

theorem ruleStepH_frame (p : Puzzle)
    (elim : Heap → Cell → Int → Heap × Option PErr) (a : Nat) (c : Cell)
    (a' : Nat) (helim : ∀ hh c' w, readH (elim hh c' w).1 a' = readH hh a')
    (h : Heap) (e : Rule × Cell) :
    readH (ruleStepH p elim a c h e).1 a' = readH h a' := by
  unfold ruleStepH
  split
  · rfl
  · split
    · rfl
    · split
      · rfl
      · exact foldH_frame _ a' (fun hh x => helim hh _ x) _ h

theorem eliminateH_frame (p : Puzzle) :
    ∀ (fuel : Nat) (h : Heap) (a : Nat) (c : Cell) (v : Int) (a' : Nat),
      a' ≠ a → readH (eliminateH p fuel h a c v).1 a' = readH h a' := by
  intro fuel
  induction fuel with
  | zero =>
    intro h a c v a' _
    rfl
  | succ f ih =>
    intro h a c v a' hne
    have helim : ∀ hh c' w,
        readH (eliminateH p f hh a c' w).1 a' = readH hh a' :=
      fun hh c' w => ih hh a c' w a' hne
    show readH (eliminateH p (f + 1) h a c v).1 a' = readH h a'
    rw [show eliminateH p (f + 1) h a c v =
        (if v ∈ readH h a c then
          if ((readH h a c).filter (fun w => w ≠ v)).length = 0 then
            (writeH h a c ((readH h a c).filter (fun w => w ≠ v)),
              some PErr.contradiction)
          else
            match peersStageH p (fun hh c' w => eliminateH p f hh a c' w) c
                ((readH h a c).filter (fun w => w ≠ v))
                (writeH h a c ((readH h a c).filter (fun w => w ≠ v))) with
            | (h2, some e) => (h2, some e)
            | (h2, none) =>
              match foldH (unitStepH (fun hh c' w => eliminateH p f hh a c' w) a v)
                  (unitsMap p.size c) h2 with
              | (h3, some e) => (h3, some e)
              | (h3, none) =>
                foldH (ruleStepH p (fun hh c' w => eliminateH p f hh a c' w) a c)
                  (ruleConstraints p.rules c) h3
        else (h, none)) from rfl]
    by_cases hv : v ∈ readH h a c
    · rw [if_pos hv]
      by_cases hlen : ((readH h a c).filter (fun w => w ≠ v)).length = 0
      · rw [if_pos hlen]
        exact readH_writeH_ne h a a' hne c _
      · rw [if_neg hlen]
        have hwrite : readH (writeH h a c ((readH h a c).filter (fun w => w ≠ v))) a' =
            readH h a' := readH_writeH_ne h a a' hne c _
        rcases hst1 : peersStageH p (fun hh c' w => eliminateH p f hh a c' w) c
            ((readH h a c).filter (fun w => w ≠ v))
            (writeH h a c ((readH h a c).filter (fun w => w ≠ v))) with ⟨h2, r2⟩
        have hh2 : readH h2 a' = readH h a' := by
          have := peersStageH_frame p _ a' helim c
            ((readH h a c).filter (fun w => w ≠ v))
            (writeH h a c ((readH h a c).filter (fun w => w ≠ v)))
          rw [hst1] at this
          exact this.trans hwrite
        cases r2 with
        | some e => exact hh2
        | none =>
          show readH
              (match foldH
                  (unitStepH (fun hh c' w => eliminateH p f hh a c' w) a v)
                  (unitsMap p.size c) h2 with
                | (h3, some e) => (h3, some e)
                | (h3, none) =>
                  foldH (ruleStepH p (fun hh c' w => eliminateH p f hh a c' w) a c)
                    (ruleConstraints p.rules c) h3).1 a' = readH h a'
          rcases hst2 : foldH
              (unitStepH (fun hh c' w => eliminateH p f hh a c' w) a v)
              (unitsMap p.size c) h2 with ⟨h3, r3⟩
          have hh3 : readH h3 a' = readH h a' := by
            have := foldH_frame
              (unitStepH (fun hh c' w => eliminateH p f hh a c' w) a v) a'
              (fun hh u => unitStepH_frame _ a v a' helim hh u)
              (unitsMap p.size c) h2
            rw [hst2] at this
            exact this.trans hh2
          cases r3 with
          | some e => exact hh3
          | none =>
            show readH
                (foldH (ruleStepH p (fun hh c' w => eliminateH p f hh a c' w) a c)
                  (ruleConstraints p.rules c) h3).1 a' = readH h a'
            have := foldH_frame
              (ruleStepH p (fun hh c' w => eliminateH p f hh a c' w) a c) a'
              (fun hh e => ruleStepH_frame p _ a c a' helim hh e)
              (ruleConstraints p.rules c) h3
            exact this.trans hh3
    · rw [if_neg hv]

theorem assignH_frame (p : Puzzle) (fuel : Nat) (h : Heap) (a : Nat) (c : Cell)
    (v : Int) (a' : Nat) (hne : a' ≠ a) :
    readH (assignH p fuel h a c v).1 a' = readH h a' :=
  foldH_frame _ a' (fun hh r => eliminateH_frame p fuel hh a c r a' hne) _ h

theorem readH_copyH (h : Heap) (a a' : Nat) (ha' : a' < h.length) :
    readH (copyH h a) a' = readH h a' := by
  unfold readH copyH
  rw [List.getD_eq_getElem?_getD, List.getD_eq_getElem?_getD,
    List.getElem?_append, if_pos ha']


/-!
The claims.
-/

/-- C1: the claim states that whenever `solve` succeeds the returned mapping
satisfies the Latin-square property.  The code violates it: on the 2×2 puzzle
with the single junction rule `+2` at anchor `(0,0)`, the initial seeding pass
alone narrows every cell to `{1}`, `search` returns immediately on its
all-singletons check without any consistency verification, and `solve`
returns the total mapping sending every cell to `1` — row 0 holds the value
`1` twice and the value `2` never. -/
theorem c1_solve_returns_non_latin_grid :
    solve ⟨2, [((0, 0), ⟨"+", 2⟩)], []⟩ =
      Except.ok [((0, 0), 1), ((0, 1), 1), ((1, 0), 1), ((1, 1), 1)] ∧
    ((0, 0), (1 : Int)) ∈
      [((0, 0), (1 : Int)), ((0, 1), 1), ((1, 0), 1), ((1, 1), 1)] ∧
    ((0, 1), (1 : Int)) ∈
      [((0, 0), (1 : Int)), ((0, 1), 1), ((1, 0), 1), ((1, 1), 1)] :=
  ⟨rfl, by decide, by decide⟩

/-- C2: the claim states that every solved grid satisfies each declared
binary junction rule on both diagonal pairs.  The code violates it: Python 2
floor division in `rule_inverse` lets the pair `(2, 4)` survive a `×9` rule
(`9 // 2 = 4` and `9 // 4 = 2`), and on the 4×4 puzzle with the single rule
`×9` at anchor `(0,0)` the solver returns a grid whose diagonal pair
`{(0,0),(1,1)}` holds `2` and `4`, with `2 · 4 = 8 ≠ 9`. -/
theorem c2_solved_grid_violates_product_rule :
    solve ⟨4, [((0, 0), ⟨"*", 9⟩)], []⟩ =
      Except.ok
        [((0, 0), 2), ((0, 1), 3), ((0, 2), 1), ((0, 3), 4),
          ((1, 0), 3), ((1, 1), 4), ((1, 2), 2), ((1, 3), 1),
          ((2, 0), 1), ((2, 1), 2), ((2, 2), 4), ((2, 3), 3),
          ((3, 0), 4), ((3, 1), 1), ((3, 2), 3), ((3, 3), 2)] ∧
    ((0, 0), (2 : Int)) ∈
      [((0, 0), (2 : Int)), ((0, 1), 3), ((0, 2), 1), ((0, 3), 4),
        ((1, 0), 3), ((1, 1), 4), ((1, 2), 2), ((1, 3), 1),
        ((2, 0), 1), ((2, 1), 2), ((2, 2), 4), ((2, 3), 3),
        ((3, 0), 4), ((3, 1), 1), ((3, 2), 3), ((3, 3), 2)] ∧
    ((1, 1), (4 : Int)) ∈
      [((0, 0), (2 : Int)), ((0, 1), 3), ((0, 2), 1), ((0, 3), 4),
        ((1, 0), 3), ((1, 1), 4), ((1, 2), 2), ((1, 3), 1),
        ((2, 0), 1), ((2, 1), 2), ((2, 2), 4), ((2, 3), 3),
        ((3, 0), 4), ((3, 1), 1), ((3, 2), 3), ((3, 3), 2)] ∧
    (2 * 4 : Int) ≠ 9 :=
  ⟨rfl, by decide, by decide, by decide⟩

/-- C3: the claim states that `rule_inverse` keeps `target / value` (product)
and `value / target` (quotient) only when the division is exact, excluding
non-integer quotients rather than rounding them.  The code violates it:
Python 2 `/` on ints floors, so `rule_inverse(("*", 7), 2, 6)` returns
`{7 // 2} = {3}` although `2 ∤ 7` (the claim requires `∅`), and
`rule_inverse(("/", 2), 5, 10)` returns `{10, 5 // 2} = {10, 2}` although
`2 ∤ 5` (the claim requires `{10}`). -/
theorem c3_rule_inverse_rounds_instead_of_excluding :
    rule_inverse ⟨"*", 7⟩ 2 6 = Except.ok [3] ∧ ¬(7 : Int) % 2 = 0 ∧
    rule_inverse ⟨"/", 2⟩ 5 10 = Except.ok [10, 2] ∧ ¬(5 : Int) % 2 = 0 :=
  ⟨rfl, by decide, rfl, by decide⟩

/-- C4 counterexample: the claim states that an out-of-range anchor or given
fails with a definition-time `PuzzleDefinitionError` / `GeometryError` before
any propagation.  No such errors exist in the code: the 2×2 puzzle with a
rule anchored at `(1,1)` dies with a `KeyError` during seeding, and the 2×2
puzzle with the given `3` at `(0,0)` raises the internal `Contradiction`
while the given is applied. -/
theorem c4_counterexample :
    solve ⟨2, [((1, 1), ⟨"+", 2⟩)], []⟩ = Except.error PErr.keyError ∧
    solve ⟨2, [], [((0, 0), 3)]⟩ = Except.error PErr.contradiction :=
  ⟨rfl, rfl⟩

/-- C4 (amended): with known operator tags and nonzero quotient targets, a
junction-rule anchor outside `[0, size−2]` on either axis makes `solve` fail
with `KeyError` during the initial seeding pass, before the givens are
applied and before any search; and for a puzzle whose seeding succeeds with
all domains nonempty and whose given keys are on the grid, a given value
outside `[1, size]` makes `solve` raise the internal `Contradiction` while
the givens are applied.  Neither failure is a dedicated definition-time
error. -/
theorem c4_no_definition_time_validation :
    (∀ (p : Puzzle) (fuel : Nat), CleanOps p →
      (∃ ar ∈ p.rules, p.size ≤ ar.1.1 + 1 ∨ p.size ≤ ar.1.2 + 1) →
      solveF p fuel = Except.error PErr.keyError) ∧
    (∀ (p : Puzzle) (s0 : Poss), CleanOps p → ValidGeom p →
      seed p = Except.ok s0 → (∀ c ∈ cells p.size, s0 c ≠ []) →
      (∀ iv ∈ p.givens, iv.1 ∈ cells p.size) →
      (∃ iv ∈ p.givens, iv.2 < 1 ∨ (p.size : Int) < iv.2) →
      solve p = Except.error PErr.contradiction) := by
  constructor
  · intro p fuel hcl ⟨ar, har, hout⟩
    have hseed := seed_bad_anchor p hcl har hout
    unfold solveF
    rw [hseed]
    rfl
  · intro p s0 hcl hg hseed hne hkeys ⟨iv0, hiv0, hval⟩
    have happ : applyGivensF p (bigFuel p) s0 = Except.error PErr.contradiction := by
      have hstep : ∀ t iv, iv ∈ p.givens →
          ((∀ x, (t x).Sublist (initPoss p.size x)) ∧
            (∀ c ∈ cells p.size, t c ≠ [])) →
          (∃ t', givenStep p (bigFuel p) t iv = Except.ok t' ∧
            ((∀ x, (t' x).Sublist (initPoss p.size x)) ∧
              (∀ c ∈ cells p.size, t' c ≠ []))) ∨
            givenStep p (bigFuel p) t iv = Except.error PErr.contradiction := by
        intro t iv hiv ⟨hts, htne⟩
        have hpt : PosDoms t := posDoms_of_shrinks hts (init_pos p.size)
        have hmt : mes p.size t < bigFuel p := by
          have := mes_mono (n := p.size) hts
          unfold bigFuel
          omega
        unfold givenStep
        rw [if_pos (hkeys iv hiv)]
        rcases assign_progress p hg hcl (bigFuel p) t iv.1 iv.2 hpt
            (hkeys iv hiv) hmt with ⟨t', hok⟩ | herr
        · have hpost := assign_post p (bigFuel p) hok
          exact Or.inl ⟨t', hok,
            fun x => (hpost.1 x).trans (hts x),
            fun c hc => hpost.2 c (htne c hc)⟩
        · exact Or.inr herr
      have hbad : ∀ t,
          ((∀ x, (t x).Sublist (initPoss p.size x)) ∧
            (∀ c ∈ cells p.size, t c ≠ [])) →
          givenStep p (bigFuel p) t iv0 = Except.error PErr.contradiction := by
        intro t ⟨hts, htne⟩
        have hpt : PosDoms t := posDoms_of_shrinks hts (init_pos p.size)
        have hmt : mes p.size t < bigFuel p := by
          have := mes_mono (n := p.size) hts
          unfold bigFuel
          omega
        unfold givenStep
        rw [if_pos (hkeys iv0 hiv0)]
        refine assign_absent_contra p hg hcl (bigFuel p) hpt (hkeys iv0 hiv0)
          hmt (htne iv0.1 (hkeys iv0 hiv0)) ?_
        intro hmem
        have := mem_init.mp ((hts iv0.1).subset hmem)
        omega
      exact foldE_forces
        (fun t => (∀ x, (t x).Sublist (initPoss p.size x)) ∧
          (∀ c ∈ cells p.size, t c ≠ []))
        p.givens hstep iv0 hiv0 hbad s0
        ⟨fun x => seed_sub hseed x, hne⟩
    unfold solve solveF
    rw [hseed, bindE_okl, happ]
    rfl

/-- C4 witness: the amended behaviour at the two concrete puzzles of the
counterexample (the anchor part at fuel 7). -/
theorem c4_witness :
    solveF ⟨2, [((1, 1), ⟨"+", 2⟩)], []⟩ 7 = Except.error PErr.keyError ∧
    solve ⟨2, [], [((0, 0), 3)]⟩ = Except.error PErr.contradiction := by
  constructor
  · exact c4_no_definition_time_validation.1 ⟨2, [((1, 1), ⟨"+", 2⟩)], []⟩ 7
      (by decide) ⟨((1, 1), ⟨"+", 2⟩), by decide, by decide⟩
  · exact c4_no_definition_time_validation.2 ⟨2, [], [((0, 0), 3)]⟩ (initPoss 2)
      (by decide) (by decide) rfl (by decide) (by decide)
      ⟨((0, 0), 3), by decide, by decide⟩

/-- C5 counterexample: the claim states that the internal `Contradiction`
never escapes `solve` in raw form, a conflicting-givens puzzle included.  The
code applies the givens outside the `try`: on the 2×2 puzzle with the two
equal same-row givens `(0,0) ↦ 1` and `(0,1) ↦ 1`, `solve` raises the raw
`Contradiction`, not the user-facing `ValueError` (`noSolution`). -/
theorem c5_counterexample :
    solve ⟨2, [], [((0, 0), 1), ((0, 1), 1)]⟩ =
      Except.error PErr.contradiction ∧
    (Except.error PErr.contradiction ≠
      (Except.error PErr.noSolution : Except PErr (List (Cell × Int)))) :=
  ⟨rfl, fun h => PErr.noConfusion (Except.error.inj h)⟩

/-- C5 (amended): `solve` surfaces the raw `Contradiction` exactly when the
application of the givens raises it (the seeding pass never raises
`Contradiction`); a `Contradiction` raised inside the search is caught and
mapped to the user-facing `ValueError` (`noSolution`). -/
theorem c5_contradiction_escapes_solve (p : Puzzle) :
    (solve p = Except.error PErr.contradiction ↔
      ∃ s0, seed p = Except.ok s0 ∧
        applyGivensF p (bigFuel p) s0 = Except.error PErr.contradiction) ∧
    ((∃ s0 s1, seed p = Except.ok s0 ∧
        applyGivensF p (bigFuel p) s0 = Except.ok s1 ∧
        searchF p (bigFuel p) s1 = Except.error PErr.contradiction) →
      solve p = Except.error PErr.noSolution) := by
  constructor
  · constructor
    · intro h
      unfold solve solveF at h
      cases hseed : seed p with
      | error e =>
        rw [hseed, bindE_errl] at h
        rcases seed_err hseed with he | he | he <;>
          · rw [he] at h
            exact absurd (Except.error.inj h) (by intro hh; exact PErr.noConfusion hh)
      | ok s0 =>
        rw [hseed, bindE_okl] at h
        cases happ : applyGivensF p (bigFuel p) s0 with
        | error e =>
          rw [happ, bindE_errl] at h
          rw [Except.error.inj h] at happ
          exact ⟨s0, rfl, happ⟩
        | ok s1 =>
          rw [happ, bindE_okl] at h
          exfalso
          cases hsr : searchF p (bigFuel p) s1 with
          | ok m =>
            rw [hsr] at h
            exact Except.noConfusion h
          | error e =>
            rw [hsr] at h
            cases e <;> exact PErr.noConfusion (Except.error.inj h)
    · intro ⟨s0, hseed, happ⟩
      unfold solve solveF
      rw [hseed, bindE_okl, happ]
      rfl
  · intro ⟨s0, s1, hseed, happ, hsearch⟩
    unfold solve solveF
    rw [hseed, bindE_okl, happ, bindE_okl, hsearch]

/-- C5 witness: the search-raised `Contradiction` of the unsolvable 2×2
puzzle with the rule `×2` at `(0,0)` is mapped to the user-facing error. -/
theorem c5_witness :
    solve ⟨2, [((0, 0), ⟨"*", 2⟩)], []⟩ = Except.error PErr.noSolution :=
  (c5_contradiction_escapes_solve ⟨2, [((0, 0), ⟨"*", 2⟩)], []⟩).2
    ⟨_, _, rfl, rfl, rfl⟩


theorem gfold_no_fuelOut (p : Puzzle) (hg : ValidGeom p) (hcl : CleanOps p)
    (fuel : Nat) :
    ∀ (l : List (Cell × Int)) (s : Poss), PosDoms s → mes p.size s < fuel →
      foldE (givenStep p fuel) l s ≠ Except.error PErr.fuelOut := by
  intro l
  induction l with
  | nil =>
    intro s _ _ h
    exact Except.noConfusion h
  | cons a t ih =>
    intro s hp hm
    rw [foldE_cons]
    by_cases hk : a.1 ∈ cells p.size
    · rw [show givenStep p fuel s a = assignF p fuel s a.1 a.2 from by
        unfold givenStep
        rw [if_pos hk]]
      rcases assign_progress p hg hcl fuel s a.1 a.2 hp hk hm with ⟨s', hok⟩ | herr
      · rw [hok, bindE_okl]
        have hpost := assign_post p fuel hok
        exact ih s' (posDoms_of_post hpost hp)
          (Nat.lt_of_le_of_lt (mes_mono hpost.1) hm)
      · rw [herr, bindE_errl]
        intro h
        exact PErr.noConfusion (Except.error.inj h)
    · rw [show givenStep p fuel s a = Except.error PErr.keyError from by
        unfold givenStep
        rw [if_neg hk], bindE_errl]
      intro h
      exact PErr.noConfusion (Except.error.inj h)

/-- C6: for every puzzle with in-range anchors, on-grid givens, known
operator tags and nonzero quotient targets, `solve` terminates: every
effective elimination strictly decreases the total candidate count and every
search branch strictly shrinks the copied state, so the fuel
`size³ + 2` never runs out — `solve` either returns a mapping or raises one
of the program's exceptions. -/
theorem c6_solve_terminates (p : Puzzle)
    (hanch : ∀ ar ∈ p.rules, ar.1.1 + 1 < p.size ∧ ar.1.2 + 1 < p.size)
    (hgiv : ∀ iv ∈ p.givens,
      iv.1 ∈ cells p.size ∧ 1 ≤ iv.2 ∧ iv.2 ≤ (p.size : Int))
    (hcl : CleanOps p) :
    solve p ≠ Except.error PErr.fuelOut := by
  have hg : ValidGeom p := by
    intro c hc e he
    obtain ⟨ar, har, _, hcases⟩ := ruleConstraints_spec he
    obtain ⟨hx, hy⟩ := hanch ar har
    rcases hcases with ⟨_, hp2⟩ | ⟨_, hp2⟩ | ⟨_, hp2⟩ | ⟨_, hp2⟩ <;>
      · rw [hp2]
        exact mem_cells.mpr ⟨by omega, by omega⟩
  unfold solve solveF
  cases hseed : seed p with
  | error e =>
    rw [bindE_errl]
    intro h
    rcases seed_err hseed with he | he | he <;>
      · rw [he] at h
        exact PErr.noConfusion (Except.error.inj h)
  | ok s0 =>
    rw [bindE_okl]
    have hsub0 := seed_sub hseed
    have hp0 : PosDoms s0 := posDoms_of_shrinks hsub0 (init_pos p.size)
    have hn0 : NodupDoms s0 := nodupDoms_of_shrinks hsub0 (init_nodup p.size)
    have hm0 : mes p.size s0 ≤ mes p.size (initPoss p.size) := mes_mono hsub0
    cases happ : applyGivensF p (bigFuel p) s0 with
    | error e =>
      rw [bindE_errl]
      intro h
      rw [Except.error.inj h] at happ
      exact gfold_no_fuelOut p hg hcl (bigFuel p) p.givens s0 hp0
        (by unfold bigFuel; omega) happ
    | ok s1 =>
      rw [bindE_okl]
      have hpost01 := gfold_post p (bigFuel p) p.givens s0 s1 happ
      have hp1 : PosDoms s1 := posDoms_of_post hpost01 hp0
      have hn1 : NodupDoms s1 := nodupDoms_of_post hpost01 hn0
      have hm1 : mes p.size s1 ≤ mes p.size (initPoss p.size) :=
        Nat.le_trans (mes_mono hpost01.1) hm0
      have hsearch := search_no_fuelOut p hg hcl (bigFuel p) s1 hp1 hn1
        (by unfold bigFuel; omega)
      cases hsr : searchF p (bigFuel p) s1 with
      | ok m =>
        intro h
        exact Except.noConfusion h
      | error e =>
        cases e with
        | fuelOut => exact absurd hsr hsearch
        | contradiction =>
          intro h
          exact PErr.noConfusion (Except.error.inj h)
        | noSolution =>
          intro h
          exact PErr.noConfusion (Except.error.inj h)
        | keyError =>
          intro h
          exact PErr.noConfusion (Except.error.inj h)
        | minEmpty =>
          intro h
          exact PErr.noConfusion (Except.error.inj h)
        | unhandledOp =>
          intro h
          exact PErr.noConfusion (Except.error.inj h)
        | zeroDiv =>
          intro h
          exact PErr.noConfusion (Except.error.inj h)

/-- C6 witness: the repository's own 6×6 example puzzle satisfies the
hypotheses, so its solve terminates. -/
theorem c6_witness :
    solve ⟨6,
      [((0, 0), ⟨"/", 2⟩), ((1, 4), ⟨"-", 1⟩), ((2, 3), ⟨"/", 2⟩),
        ((3, 1), ⟨"+", 8⟩), ((3, 4), ⟨"-", 2⟩)],
      [((0, 3), 2), ((3, 0), 4), ((3, 5), 2), ((4, 0), 6)]⟩ ≠
      Except.error PErr.fuelOut :=
  c6_solve_terminates _ (by decide) (by decide) (by decide)

/-- C7: each search branch works on a fresh copy of the parent's dict
(`next_possibles = dict(possibles)`, modelled as an allocation at address
`h.length`), and when `assign_value` with its propagation cascade raises
`Contradiction` on that copy, every previously allocated dict — the parent's
domain state and every earlier sibling's copy — is left entirely unchanged. -/
theorem c7_failed_branch_frame (p : Puzzle) (fuel : Nat) (h : Heap) (a : Nat)
    (c : Cell) (v : Int)
    (hfail : (assignH p fuel (copyH h a) h.length c v).2 =
      some PErr.contradiction) :
    ∀ a', a' < h.length →
      readH (assignH p fuel (copyH h a) h.length c v).1 a' = readH h a' := by
  intro a' ha'
  have h1 := assignH_frame p fuel (copyH h a) h.length c v a' (Nat.ne_of_lt ha')
  rw [h1, readH_copyH h a a' ha']

/-- C7 witness: a concrete failing branch (assigning the out-of-domain value
`3` on a copied 2×2 state) leaves the parent dict at address 0 unchanged. -/
theorem c7_witness :
    (assignH ⟨2, [], []⟩ 12 (copyH [fun _ => [1, 2]] 0) 1 (0, 0) 3).2 =
      some PErr.contradiction ∧
    readH (assignH ⟨2, [], []⟩ 12 (copyH [fun _ => [1, 2]] 0) 1 (0, 0) 3).1 0 =
      readH [fun _ => [1, 2]] 0 :=
  ⟨rfl, c7_failed_branch_frame ⟨2, [], []⟩ 12 [fun _ => [1, 2]] 0 (0, 0) 3 rfl
    0 (by decide)⟩

/-- C8: the unit scan of `eliminate_value` — for a unit of the cell, if no
cell of the unit still has the value among its candidates the scan raises
`Contradiction`, and if exactly one cell still has it the scan assigns the
value to that (unique) cell, a hidden single. -/
theorem c8_unit_scan (p : Puzzle) (fuel : Nat) (v : Int) (s : Poss) (c : Cell)
    (u : List Cell) (hu : u ∈ unitsMap p.size c) :
    ((u.filter (fun q => v ∈ s q)).length = 0 →
      unitStepF p fuel v s u = Except.error PErr.contradiction) ∧
    ((u.filter (fun q => v ∈ s q)).length = 1 →
      ∃ place, place ∈ u ∧ v ∈ s place ∧
        (∀ q ∈ u, v ∈ s q → q = place) ∧
        unitStepF p fuel v s u = assignF p fuel s place v) := by
  constructor
  · intro h0
    have hfil := List.length_eq_zero.mp h0
    unfold unitStepF
    rw [hfil]
  · intro h1
    obtain ⟨place, hfil⟩ := List.length_eq_one.mp h1
    have hpl : place ∈ u.filter (fun q => v ∈ s q) := by
      rw [hfil]
      exact List.mem_cons_self place []
    refine ⟨place, List.mem_of_mem_filter hpl, ?_, ?_, ?_⟩
    · have := List.of_mem_filter hpl
      simpa using this
    · intro q hq hvq
      have hqf : q ∈ u.filter (fun q => v ∈ s q) :=
        List.mem_filter.mpr ⟨hq, by simpa using hvq⟩
      rw [hfil] at hqf
      simpa using hqf
    · unfold unitStepF
      rw [hfil]

/-- C8 witness: with every domain `{2}`, the value `1` has no place in the
unit `{(0,0),(1,0)}` of `(0,0)`, so the scan raises `Contradiction`. -/
theorem c8_witness :
    unitStepF ⟨2, [], []⟩ 5 1 (fun _ => [2]) [(0, 0), (1, 0)] =
      Except.error PErr.contradiction :=
  (c8_unit_scan ⟨2, [], []⟩ 5 1 (fun _ => [2]) (0, 0) [(0, 0), (1, 0)]
    (by decide)).1 (by decide)

/-- C9: whenever `solve` succeeds, every given cell is mapped to its given
value: the givens are assigned before the search, domains only ever shrink,
and success requires every domain to be a singleton. -/
theorem c9_solve_respects_givens (p : Puzzle) (fuel : Nat) (idx : Cell)
    (v : Int) (m : List (Cell × Int)) (hgiv : (idx, v) ∈ p.givens)
    (hok : solveF p fuel = Except.ok m) : (idx, v) ∈ m := by
  obtain ⟨s0, s1, hs0, hs1, hsearch⟩ := solveF_ok_parts hok
  have hkey : idx ∈ cells p.size :=
    gfold_keys p fuel p.givens hs1 (idx, v) hgiv
  have hkeep : ∀ x ∈ s1 idx, x = v :=
    gfold_keeps p fuel p.givens s0 s1 hs1 (idx, v) hgiv
  obtain ⟨t, hsub, hlen1, hm⟩ := search_sol p fuel s1 m hsearch
  obtain ⟨w, hw⟩ := List.length_eq_one.mp (hlen1 idx hkey)
  have hwv : w = v := hkeep w ((hsub idx).subset (by
    rw [hw]
    exact List.mem_cons_self w []))
  rw [hm]
  unfold extractSol
  refine List.mem_map.mpr ⟨idx, hkey, ?_⟩
  rw [hw, hwv]
  rfl

/-- C9 witness: on the 2×2 puzzle with the single given `(0,0) ↦ 1`, the
returned mapping keeps the given. -/
theorem c9_witness :
    ((0, 0), (1 : Int)) ∈
      ([((0, 0), 1), ((0, 1), 2), ((1, 0), 2), ((1, 1), 1)] :
        List (Cell × Int)) :=
  c9_solve_respects_givens ⟨2, [], [((0, 0), 1)]⟩
    (bigFuel ⟨2, [], [((0, 0), 1)]⟩) (0, 0) 1
    [((0, 0), 1), ((0, 1), 2), ((1, 0), 2), ((1, 1), 1)] (by decide) rfl

/-- C10 counterexample: the claim states that `assign_value` with a value
outside the cell's candidates always raises `Contradiction`.  On an empty
domain the removal loop has nothing to eliminate and `assign_value` returns
normally. -/
theorem c10_counterexample :
    assignF ⟨2, [], []⟩ 5 (fun _ => []) (0, 0) 1 =
      Except.ok (fun _ => ([] : List Int)) ∧
    (1 : Int) ∉ (fun _ => ([] : List Int)) (0, 0) :=
  ⟨rfl, by simp⟩

/-- C10 (amended): with valid geometry and operators, positive domains and
sufficient fuel, assigning a value absent from a nonempty cell domain raises
`Contradiction` — the removal loop eliminates every candidate and the
elimination that would empty the domain raises; the singleton `{value}` is
never produced. -/
theorem c10_assign_absent_value (p : Puzzle) (hg : ValidGeom p)
    (hcl : CleanOps p) (fuel : Nat) (s : Poss) (c : Cell) (v : Int)
    (hp : PosDoms s) (hc : c ∈ cells p.size) (hm : mes p.size s < fuel)
    (hne : s c ≠ []) (hv : v ∉ s c) :
    assignF p fuel s c v = Except.error PErr.contradiction :=
  assign_absent_contra p hg hcl fuel hp hc hm hne hv

/-- C10 witness: assigning `5` to a fresh 2×2 cell holding `{1, 2}` raises
`Contradiction`. -/
theorem c10_witness :
    assignF ⟨2, [], []⟩ 9 (initPoss 2) (0, 0) 5 =
      Except.error PErr.contradiction :=
  c10_assign_absent_value ⟨2, [], []⟩ (by decide) (by decide) 9 (initPoss 2)
    (0, 0) 5 (init_pos 2) (by decide) (by decide) (by decide) (by decide)

end Mathrax
